import Mathlib

/-!
Verification of the Porphyry.js layout core (src/resources/index.js) against
its natural-language specification.

Shallow embedding conventions:
  * JavaScript numbers are modelled as rationals (ℚ).  `Math.round` is
    `jsRound` (round half toward +∞), `Math.ceil` is `Int.ceil`.
  * The injected text measurer (spec: TextMeasurer; source: `_measureText`,
    whose canvas call is the injection point) is a parameter
    `measure : String → ℚ → ℚ`.
  * Raw input JSON values are `JVal`; only the four fields the source reads
    (`topic`, `url`, `direction`, `children`) are modelled on objects.
    A `topic`/`url`/`direction` field, when present, is modelled as a string
    (the only case the source's downstream string operations support);
    `children` is an arbitrary `JVal` so that the source's
    `Array.isArray(data.children)` guard is modelled faithfully.
  * Property access on `null` throws in JS; `buildTree` is therefore
    embedded in `Except JsError`.  No other operation in the layout core
    can throw, so the remaining passes are total functions.
  * The collapse set (`this._collapsed`, a JS `Set` of node ids) is a
    `List ℕ` queried with `List.contains`.
-/

/-! ## Definitions: the shallow embedding of the layout core -/

/-- JS `Math.round`: round half toward positive infinity. -/
def jsRound (q : ℚ) : ℚ := ((⌊q + 1/2⌋ : ℤ) : ℚ)

/-- JS `Math.ceil` producing a whole number. -/
def jsCeil (q : ℚ) : ℚ := ((⌈q⌉ : ℤ) : ℚ)

/-- The built-in palette `DEFAULT_COLORS` (index.js lines 733-744): ten colors. -/
def DEFAULT_COLORS : List String :=
  ["#E05C5C", "#F0883E", "#D4A017", "#4CAF82", "#29A8AB",
   "#4A90D9", "#8B6FD4", "#D46FAB", "#5BB8A0", "#7DAA44"]

/-- Constant `LINK_ICON_SPACE` (index.js line 749). -/
def LINK_ICON_SPACE : ℚ := 25

/-- Per-depth style profile (`center` / `branch` / `leaf` blocks of
`DEFAULT_OPTIONS`); only the fields the layout core reads. -/
structure Profile where
  fontSize : ℚ
  paddingX : ℚ
  paddingY : ℚ
  maxWidth : ℚ
  deriving Repr, DecidableEq

/-- The slice of `DEFAULT_OPTIONS` consumed by the layout core. -/
structure Options where
  colors : List String
  layout : String
  centerEdge : String
  branchSpacingX : ℚ
  subSpacingX : ℚ
  verticalSpacing : ℚ
  verticalSpacingY : ℚ
  horizontalSpacing : ℚ
  lineHeight : ℚ
  center : Profile
  branch : Profile
  leaf : Profile
  spacing : ℚ
  deriving Repr, DecidableEq

/-- Default option values (index.js lines 753-845), layout fields only. -/
def defaultOptions : Options where
  colors := DEFAULT_COLORS
  layout := "auto"
  centerEdge := "side"
  branchSpacingX := 220
  subSpacingX := 170
  verticalSpacing := 50
  verticalSpacingY := 60
  horizontalSpacing := 30
  lineHeight := 29/20
  center := { fontSize := 17, paddingX := 28, paddingY := 16, maxWidth := 240 }
  branch := { fontSize := 14, paddingX := 18, paddingY := 10, maxWidth := 200 }
  leaf := { fontSize := 13, paddingX := 10, paddingY := 7, maxWidth := 170 }
  spacing := 1

/-- Raw JSON input value.  Objects carry exactly the four fields the source
reads; an absent field is `none` (JS `undefined`). -/
inductive JVal where
  | null : JVal
  | num (q : ℚ) : JVal
  | str (s : String) : JVal
  | arr (elems : List JVal) : JVal
  | obj (topic url direction : Option String) (children : Option JVal) : JVal
  deriving Repr

/-- The only exception the embedded passes can raise: JS property access on
`null`/`undefined` (there is no error class of any kind in the source). -/
inductive JsError where
  | typeError : JsError
  deriving Repr, DecidableEq

/-- Fields of a built node (`_buildTree`, index.js lines 1262-1287) that are
set at build time.  The `parent` back-reference is omitted (traversal only);
layout fields (`x`, `y`, `width`, `height`) are initialized to zero by the
source and appear in the later passes' node types. -/
structure NodeInfo where
  topic : String
  url : Option String
  direction : Option String
  depth : ℕ
  colorIdx : ℤ
  id : ℕ
  deriving Repr, DecidableEq

/-- A built tree node. -/
inductive Node where
  | mk (info : NodeInfo) (children : List Node)
  deriving Repr

def Node.info : Node → NodeInfo
  | .mk i _ => i

def Node.children : Node → List Node
  | .mk _ cs => cs

/-- JS `data.topic || ''` for a `topic` field modelled as `Option String`. -/
def jsTopicOf : Option String → String
  | none => ""
  | some s => s

/-- JS `data.url || null` / `data.direction || null`: the empty string is
falsy and collapses to `null`. -/
def jsOrNull : Option String → Option String
  | none => none
  | some s => if s = "" then none else some s

/-- Accessing the field map of a JS value: objects expose their fields, any
other non-null value yields `undefined` for every field (so e.g. a numeric
root builds like `{}`); `null` access throws and is handled in `buildTree`. -/
def JVal.topicField : JVal → Option String
  | .obj t _ _ _ => t
  | _ => none

def JVal.urlField : JVal → Option String
  | .obj _ u _ _ => u
  | _ => none

def JVal.directionField : JVal → Option String
  | .obj _ _ d _ => d
  | _ => none

def JVal.childrenField : JVal → Option JVal
  | .obj _ _ _ c => c
  | _ => none

/-- Guard `Array.isArray(data.children)` combined with extraction of the array. -/
def JVal.childArray : JVal → Option (List JVal)
  | .obj _ _ _ (some (.arr elems)) => some elems
  | _ => none

/-- The node record `_buildTree` creates before recursing (index.js lines
1263-1276): field accesses with their `|| ''` / `|| null` normalizations. -/
def buildInfo (d : JVal) (colorIdx : ℤ) (depth : ℕ) (ctr : ℕ) : NodeInfo :=
  { topic := jsTopicOf d.topicField
    url := jsOrNull d.urlField
    direction := jsOrNull d.directionField
    depth := depth
    colorIdx := colorIdx
    id := ctr }

mutual
/-- Embedding of `Porphyry.prototype._buildTree` (index.js lines 1262-1287):
depth-first construction threading the id counter (`this._nodeIdCounter`),
in `Except` because field access on a `null` datum throws a JS TypeError.
Recursion happens only when `Array.isArray(data.children)` holds, i.e. on
an object whose `children` field is an array. -/
def buildTree : JVal → ℤ → ℕ → ℕ → Except JsError (Node × ℕ)
  | .null, _, _, _ => .error .typeError
  | .num q, colorIdx, depth, ctr =>
    .ok (.mk (buildInfo (.num q) colorIdx depth ctr) [], ctr + 1)
  | .str s, colorIdx, depth, ctr =>
    .ok (.mk (buildInfo (.str s) colorIdx depth ctr) [], ctr + 1)
  | .arr es, colorIdx, depth, ctr =>
    .ok (.mk (buildInfo (.arr es) colorIdx depth ctr) [], ctr + 1)
  | .obj t u dir c, colorIdx, depth, ctr =>
    match c with
    | some (.arr elems) =>
      match buildChildren elems colorIdx depth (ctr + 1) 0 with
      | .error e => .error e
      | .ok (cs, ctr2) => .ok (.mk (buildInfo (.obj t u dir c) colorIdx depth ctr) cs, ctr2)
    | _ => .ok (.mk (buildInfo (.obj t u dir c) colorIdx depth ctr) [], ctr + 1)

/-- The `data.children.forEach` loop of `_buildTree`: `i` is the running
child index, used for the depth-1 color rule
`depth === 0 ? i % DEFAULT_COLORS.length : colorIdx`. -/
def buildChildren : List JVal → ℤ → ℕ → ℕ → ℕ → Except JsError (List Node × ℕ)
  | [], _, _, ctr, _ => .ok ([], ctr)
  | c :: rest, colorIdx, depth, ctr, i =>
    let ci : ℤ := if depth = 0 then ((i % DEFAULT_COLORS.length : ℕ) : ℤ) else colorIdx
    match buildTree c ci (depth + 1) ctr with
    | .error e => .error e
    | .ok (n, ctr1) =>
      match buildChildren rest colorIdx depth ctr1 (i + 1) with
      | .error e => .error e
      | .ok (ns, ctr2) => .ok (n :: ns, ctr2)
end

mutual
/-- Number of nodes in a built tree. -/
def Node.size : Node → ℕ
  | .mk _ cs => 1 + sizeList cs

def sizeList : List Node → ℕ
  | [] => 0
  | c :: cs => Node.size c + sizeList cs
end

mutual
/-- Node ids of a built tree in depth-first preorder (node before its
children, children in array order). -/
def preIds : Node → List ℕ
  | .mk i cs => i.id :: preIdsList cs

def preIdsList : List Node → List ℕ
  | [] => []
  | c :: cs => preIds c ++ preIdsList cs
end

mutual
/-- All node records of a tree, in depth-first preorder. -/
def nodesOf : Node → List NodeInfo
  | .mk i cs => i :: nodesOfList cs

def nodesOfList : List Node → List NodeInfo
  | [] => []
  | c :: cs => nodesOf c ++ nodesOfList cs
end

/-- JS falsiness of a `direction` value (`!c.direction`). -/
def jsFalsyDir : Option String → Bool
  | none => true
  | some s => s = ""

mutual
/-- Embedding of `_propagateDir` (index.js lines 1324-1327): overwrite the
direction of a whole subtree. -/
def propagateDir : Node → Option String → Node
  | .mk i cs, dir => .mk { i with direction := dir } (propagateDirList cs dir)

def propagateDirList : List Node → Option String → List Node
  | [], _ => []
  | c :: cs, dir => propagateDir c dir :: propagateDirList cs dir
end

def setDirection : Node → Option String → Node
  | .mk i cs, d => .mk { i with direction := d } cs

/-- Count `fixed.filter(c => c.direction === d).length` — because filtering the
pre-filtered `fixed` list for one side equals filtering all children for
that side, this is embedded as one filter. -/
def countDir (children : List Node) (d : String) : ℕ :=
  (children.filter (fun c => c.info.direction = some d)).length

/-- The `floats.forEach` loop of `_assignDirections` (index.js lines
1316-1319), walking the child array: children with a falsy direction are the
floats and receive a side from the running counts (`rightCount <= leftCount`
sends the child right); all other children pass through unchanged. -/
def assignFloats : ℕ → ℕ → List Node → List Node
  | _, _, [] => []
  | rc, lc, c :: rest =>
    if jsFalsyDir c.info.direction then
      if rc ≤ lc then setDirection c (some "right") :: assignFloats (rc + 1) lc rest
      else setDirection c (some "left") :: assignFloats rc (lc + 1) rest
    else c :: assignFloats rc lc rest

/-- Embedding of `Porphyry.prototype._assignDirections` (index.js lines
1289-1322).  Any layout value other than down/up/left/right takes the auto
path, as in the source. -/
def assignDirections (layout : String) : Node → Node
  | .mk i cs =>
    if layout = "down" ∨ layout = "up" then .mk i (propagateDirList cs (some layout))
    else if layout = "left" then .mk i (propagateDirList cs (some "left"))
    else if layout = "right" then .mk i (propagateDirList cs (some "right"))
    else
      let assigned := assignFloats (countDir cs "right") (countDir cs "left") cs
      .mk i (assigned.map (fun c => propagateDir c c.info.direction))

/-- The directions of the top-level children of a tree. -/
def topDirs (t : Node) : List (Option String) :=
  t.children.map (fun c => c.info.direction)

/-- Modelled from the spec: §4.2 auto mode — "top-level children with an
explicit pin (left/right) keep it.  Remaining unpinned top-level children
are assigned greedily: maintain running counts of left- and right-assigned
children; each unpinned child goes to whichever side currently has the
strictly fewer assigned children; on a tie, right wins." -/
def specGreedy : ℕ → ℕ → List (Option String) → List (Option String)
  | _, _, [] => []
  | rc, lc, d :: rest =>
    if d = some "left" ∨ d = some "right" then d :: specGreedy rc lc rest
    else if rc < lc then some "right" :: specGreedy (rc + 1) lc rest
    else if lc < rc then some "left" :: specGreedy rc (lc + 1) rest
    else some "right" :: specGreedy (rc + 1) lc rest

/-- Modelled from the spec: the initial running counts are the pinned
children of each side. -/
def specAssign (dirs : List (Option String)) : List (Option String) :=
  specGreedy (dirs.filter (fun d => d = some "right")).length
    (dirs.filter (fun d => d = some "left")).length dirs

/-- JS `text.split(/\s+/).filter(Boolean)` on the character list: the
maximal runs of non-whitespace characters, with `cur` accumulating the
current run in reverse. -/
def splitWordsGo : List Char → List Char → List (List Char)
  | cur, [] => if cur = [] then [] else [cur.reverse]
  | cur, ch :: rest =>
    if ch.isWhitespace then (if cur = [] then [] else [cur.reverse]) ++ splitWordsGo [] rest
    else splitWordsGo (ch :: cur) rest

def splitWords (text : String) : List String :=
  (splitWordsGo [] text.data).map (fun l => String.mk l)

/-- The character loop of `breakWord` (index.js lines 881-895): `chunk` is
the growing chunk; when `chunk + word[i]` no longer fits, the nonempty chunk
is emitted and the chunk restarts at the single character `word[i]`. -/
def breakWordGo (measure : String → ℚ) (maxPx : ℚ) : String → List Char → List String
  | chunk, [] => if chunk = "" then [] else [chunk]
  | chunk, ch :: rest =>
    let candidate := chunk.push ch
    if measure candidate ≤ maxPx then breakWordGo measure maxPx candidate rest
    else (if chunk = "" then [] else [chunk]) ++ breakWordGo measure maxPx (String.singleton ch) rest

/-- Function `breakWord` with its `chunks.length ? chunks : [word]` fallback. -/
def breakWord (measure : String → ℚ) (maxPx : ℚ) (word : String) : List String :=
  let chunks := breakWordGo measure maxPx "" word.data
  if chunks = [] then [word] else chunks

/-- One step of the packing loop (the inner `parts.forEach` body of
`wrapText`): the state is `(finished lines, current)`. -/
def packLine (measure : String → ℚ) (maxPx : ℚ) :
    List String × String → String → List String × String
  | (lines, current), part =>
    let candidate := if current = "" then part else current ++ " " ++ part
    if measure candidate ≤ maxPx then (lines, candidate)
    else ((if current = "" then lines else lines ++ [current]), part)

/-- Dispatch `measureFn(word) > maxPx ? breakWord(word) : [word]`. -/
def wordParts (measure : String → ℚ) (maxPx : ℚ) (word : String) : List String :=
  if maxPx < measure word then breakWord measure maxPx word else [word]

/-- Embedding of `wrapText` (index.js lines 876-917).  The two nested
`forEach` loops thread one `(lines, current)` state through all parts of all
words in order, so they are embedded as a single fold over the flattened
part list. -/
def wrapText (text : String) (maxPx : ℚ) (measure : String → ℚ) : List String :=
  let words := splitWords text
  if words = [] then [""]
  else
    let parts := (words.map (wordParts measure maxPx)).flatten
    let st := parts.foldl (packLine measure maxPx) ([], "")
    if st.2 = "" then st.1 else st.1 ++ [st.2]

/-- A sized node: the build-time fields plus the fields `_computeSizes`
writes (`lines`, `width`, `height`; `fontSize` and the paddings are
recomputed from depth wherever needed and not stored). -/
structure SInfo where
  topic : String
  url : Option String
  direction : Option String
  depth : ℕ
  colorIdx : ℤ
  id : ℕ
  lines : List String
  width : ℚ
  height : ℚ
  deriving Repr, DecidableEq

inductive SNode where
  | mk (info : SInfo) (children : List SNode)
  deriving Repr

def SNode.info : SNode → SInfo
  | .mk i _ => i

def SNode.children : SNode → List SNode
  | .mk _ cs => cs

/-- The per-depth style dispatch at the top of `_computeSizes`. -/
def profileFor (o : Options) (depth : ℕ) : Profile :=
  if depth = 0 then o.center else if depth = 1 then o.branch else o.leaf

/-- Size one node record (the straight-line body of `_computeSizes`):
content budget, wrapping, widest line, and the rounded-up box size. -/
def sizeInfo (o : Options) (measure : String → ℚ → ℚ) (i : NodeInfo) : SInfo :=
  let p := profileFor o i.depth
  let iconExtra : ℚ := if i.url.isSome then LINK_ICON_SPACE else 0
  let maxContentW := p.maxWidth - p.paddingX * 2 - iconExtra
  let lines := wrapText i.topic maxContentW (fun t => measure t p.fontSize)
  let maxLineW := lines.foldl (fun m l => max m (measure l p.fontSize)) 0
  let lh := p.fontSize * o.lineHeight
  { topic := i.topic, url := i.url, direction := i.direction, depth := i.depth,
    colorIdx := i.colorIdx, id := i.id, lines := lines,
    width := jsCeil (min (maxLineW + p.paddingX * 2 + iconExtra) p.maxWidth),
    height := jsCeil ((lines.length : ℚ) * lh + p.paddingY * 2) }

mutual
/-- Embedding of `Porphyry.prototype._computeSizes`: size every node. -/
def computeSizes (o : Options) (measure : String → ℚ → ℚ) : Node → SNode
  | .mk i cs => .mk (sizeInfo o measure i) (computeSizesList o measure cs)

def computeSizesList (o : Options) (measure : String → ℚ → ℚ) : List Node → List SNode
  | [] => []
  | c :: cs => computeSizes o measure c :: computeSizesList o measure cs
end

mutual
/-- All sized node records of a tree, in depth-first preorder. -/
def sInfos : SNode → List SInfo
  | .mk i cs => i :: sInfosList cs

def sInfosList : List SNode → List SInfo
  | [] => []
  | c :: cs => sInfos c ++ sInfosList cs
end

mutual
/-- Embedding of `_maxDepth` (index.js lines 1382-1385): the deepest depth
value in the subtree (for a childless node, its own depth). -/
def maxDepth : SNode → ℕ
  | .mk i [] => i.depth
  | .mk _ (c :: cs) => maxDepthList (c :: cs)

/-- Fold for `Math.max(...node.children.map(...))` over a nonempty child list. -/
def maxDepthList : List SNode → ℕ
  | [] => 0
  | c :: cs => max (maxDepth c) (maxDepthList cs)
end

/-- The effective spacing record `this._sp`. -/
structure Sp where
  branchSpacingX : ℚ
  subSpacingX : ℚ
  verticalSpacingY : ℚ
  horizontalSpacing : ℚ
  verticalSpacing : ℚ
  deriving Repr, DecidableEq

/-- Embedding of `Porphyry.prototype._computeAdaptiveSpacing` (index.js
lines 1395-1430).  `o.spacing` is always a number in the model, so the
`typeof` guard on the multiplier is the identity. -/
def computeAdaptiveSpacing (o : Options) (root : SNode) : Sp :=
  let sm := o.spacing
  if o.layout = "up" ∨ o.layout = "down" then
    { branchSpacingX := jsRound (o.branchSpacingX * sm)
      subSpacingX := jsRound (o.subSpacingX * sm)
      verticalSpacingY := jsRound (o.verticalSpacingY * sm)
      horizontalSpacing := jsRound (o.horizontalSpacing * sm)
      verticalSpacing := jsRound (o.verticalSpacing * sm) }
  else
    let maxD := maxDepth root
    let depthFactor : ℚ := if maxD ≤ 2 then 1 else max (9/20) ((5/2) / (maxD : ℚ))
    let factor := sm * depthFactor
    { branchSpacingX := jsRound (o.branchSpacingX * factor)
      subSpacingX := jsRound (o.subSpacingX * factor)
      verticalSpacingY := jsRound (o.verticalSpacingY * sm)
      horizontalSpacing := jsRound (o.horizontalSpacing * sm)
      verticalSpacing := jsRound (o.verticalSpacing * sm) }

mutual
/-- Embedding of `_subtreeHeight` (index.js lines 1431-1438): the vertical
footprint of a subtree in horizontal layouts.  `_sp` is always set before
layout runs, so the `this._sp ?` fallback is dropped. -/
def subtreeHeight (sp : Sp) (collapsed : List ℕ) : SNode → ℚ
  | .mk i cs =>
    if cs.isEmpty || collapsed.contains i.id then i.height + sp.verticalSpacing
    else max (subtreeHeightList sp collapsed cs) (i.height + sp.verticalSpacing)

def subtreeHeightList (sp : Sp) (collapsed : List ℕ) : List SNode → ℚ
  | [] => 0
  | c :: cs => subtreeHeight sp collapsed c + subtreeHeightList sp collapsed cs
end

mutual
/-- Embedding of `_subtreeWidth` (index.js lines 1461-1468): the horizontal
footprint of a subtree in vertical layouts. -/
def subtreeWidth (sp : Sp) (collapsed : List ℕ) : SNode → ℚ
  | .mk i cs =>
    if cs.isEmpty || collapsed.contains i.id then i.width + sp.horizontalSpacing
    else max (subtreeWidthList sp collapsed cs) (i.width + sp.horizontalSpacing)

def subtreeWidthList (sp : Sp) (collapsed : List ℕ) : List SNode → ℚ
  | [] => 0
  | c :: cs => subtreeWidth sp collapsed c + subtreeWidthList sp collapsed cs
end

mutual
/-- Modelled from the spec: §4.5 — "Define a subtree's vertical footprint
recursively: if the node is collapsed (id ∈ CollapseState) or has no
children, footprint = height + siblingGap; otherwise footprint =
max(Σ children footprints, height + siblingGap)."  Stated independently of
`subtreeHeight` so the two can be compared. -/
def footprintSpec (siblingGap : ℚ) (collapsed : List ℕ) : SNode → ℚ
  | .mk i cs =>
    if collapsed.contains i.id || cs.isEmpty then i.height + siblingGap
    else max (footprintSpecList siblingGap collapsed cs) (i.height + siblingGap)

/-- Modelled from the spec: the sum of the children's footprints. -/
def footprintSpecList (siblingGap : ℚ) (collapsed : List ℕ) : List SNode → ℚ
  | [] => 0
  | c :: cs => footprintSpec siblingGap collapsed c + footprintSpecList siblingGap collapsed cs
end

mutual
/-- Hiding the descendants of collapsed nodes: the subtree a collapsed node
keeps for itself is just the node. -/
def pruneCollapsed (collapsed : List ℕ) : SNode → SNode
  | .mk i cs =>
    if collapsed.contains i.id then .mk i [] else .mk i (pruneCollapsedList collapsed cs)

def pruneCollapsedList (collapsed : List ℕ) : List SNode → List SNode
  | [] => []
  | c :: cs => pruneCollapsed collapsed c :: pruneCollapsedList collapsed cs
end

/-- A positioned node: sized fields plus the coordinates the layout pass
writes. -/
inductive PNode where
  | mk (info : SInfo) (x y : ℚ) (children : List PNode)
  deriving Repr

mutual
/-- Nodes the layout pass never reaches keep their build-time coordinates
`x = 0, y = 0` (`_buildTree` initializes both to zero). -/
def unplaced : SNode → PNode
  | .mk i cs => .mk i 0 0 (unplacedList cs)

def unplacedList : List SNode → List PNode
  | [] => []
  | c :: cs => unplaced c :: unplacedList cs
end

mutual
/-- Embedding of `_layoutNode` (index.js lines 1516-1539): place a node
whose near-to-center edge sits at `anchorX` and whose center line is `y`,
then stack its children (unless childless or collapsed). -/
def layoutNode (sp : Sp) (collapsed : List ℕ) (dir : String) (anchorX y : ℚ) :
    SNode → PNode
  | .mk i cs =>
    let x := if dir = "right" then anchorX + i.width / 2 else anchorX - i.width / 2
    if cs.isEmpty || collapsed.contains i.id then .mk i x y (unplacedList cs)
    else
      let nextAnchor := if dir = "right" then x + i.width / 2 + sp.subSpacingX
        else x - i.width / 2 - sp.subSpacingX
      .mk i x y (layoutChildren sp collapsed dir nextAnchor
        (y - subtreeHeightList sp collapsed cs / 2) cs)

/-- The child-stacking loop shared by `_layoutNode` and `_layoutSide`:
`cy` is the running top of the next footprint slice. -/
def layoutChildren (sp : Sp) (collapsed : List ℕ) (dir : String) (anchorX : ℚ) :
    ℚ → List SNode → List PNode
  | _, [] => []
  | cy, c :: rest =>
    layoutNode sp collapsed dir anchorX (cy + subtreeHeight sp collapsed c / 2) c ::
      layoutChildren sp collapsed dir anchorX (cy + subtreeHeight sp collapsed c) rest
end

/-- Embedding of `_layoutSide` (index.js lines 1494-1514): anchor a side's
branches at the center edge and stack them vertically centered on the root. -/
def layoutSide (o : Options) (sp : Sp) (collapsed : List ℕ) (rootWidth : ℚ)
    (branches : List SNode) (dir : String) : List PNode :=
  if branches.isEmpty then []
  else
    let edgeX := if dir = "right"
      then (if o.centerEdge = "side" then rootWidth / 2 + sp.branchSpacingX
        else sp.branchSpacingX)
      else (if o.centerEdge = "side" then -(rootWidth / 2 + sp.branchSpacingX)
        else -sp.branchSpacingX)
    layoutChildren sp collapsed dir edgeX
      (-(subtreeHeightList sp collapsed branches) / 2) branches

/-- The horizontal branch of `_layoutTree` (index.js lines 1440-1456).  The
source positions children in place; here the laid-out right side, left side
and never-positioned remainder (children whose direction is neither side,
which `_layoutSide` is never called on) are regrouped, which permutes the
child order but carries the same node set with the same coordinates. -/
def layoutTreeH (o : Options) (sp : Sp) (collapsed : List ℕ) : SNode → PNode
  | .mk i cs =>
    .mk i 0 0
      (layoutSide o sp collapsed i.width
        (cs.filter (fun c => c.info.direction = some "right")) "right" ++
       layoutSide o sp collapsed i.width
        (cs.filter (fun c => c.info.direction = some "left")) "left" ++
       unplacedList (cs.filter (fun c =>
        ¬(c.info.direction = some "right" ∨ c.info.direction = some "left"))))

mutual
/-- Embedding of `_layoutVerticalNode` (index.js lines 1475-1492): given a
node already placed at `(x, y)`, place its children in a row on the far
side (`sign` is +1 for down, -1 for up). -/
def layoutVertical (sp : Sp) (collapsed : List ℕ) (sign : ℚ) (x y : ℚ) :
    SNode → PNode
  | .mk i cs =>
    if cs.isEmpty || collapsed.contains i.id then .mk i x y (unplacedList cs)
    else
      let edgeY := y + sign * (i.height / 2 + sp.verticalSpacingY)
      .mk i x y (layoutVerticalChildren sp collapsed sign edgeY
        (x - subtreeWidthList sp collapsed cs / 2) cs)

/-- The `node.children.forEach` loop of `_layoutVerticalNode`: `cx` is the
running left edge of the next footprint slice. -/
def layoutVerticalChildren (sp : Sp) (collapsed : List ℕ) (sign : ℚ) (edgeY : ℚ) :
    ℚ → List SNode → List PNode
  | _, [] => []
  | cx, c :: rest =>
    layoutVertical sp collapsed sign (cx + subtreeWidth sp collapsed c / 2)
      (edgeY + sign * c.info.height / 2) c ::
      layoutVerticalChildren sp collapsed sign edgeY
        (cx + subtreeWidth sp collapsed c) rest
end

/-- Embedding of `_layoutTree` (index.js lines 1440-1456): root at the
origin, then the vertical or horizontal family. -/
def layoutTree (o : Options) (sp : Sp) (collapsed : List ℕ) (root : SNode) : PNode :=
  if o.layout = "down" ∨ o.layout = "up" then
    layoutVertical sp collapsed (if o.layout = "down" then 1 else -1) 0 0 root
  else layoutTreeH o sp collapsed root

/-- An axis-aligned node box: center `(x, y)`, size `w × h`. -/
structure Box where
  x : ℚ
  y : ℚ
  w : ℚ
  h : ℚ
  deriving Repr, DecidableEq

mutual
/-- The boxes of exactly the visible nodes, mirroring `_drawTree` /
`_drawSubtree` (index.js lines 1543-1559): a node is drawn, and its
children are drawn only when it is not collapsed. -/
def visBoxes (collapsed : List ℕ) : PNode → List Box
  | .mk i x y cs =>
    Box.mk x y i.width i.height ::
      (if collapsed.contains i.id then [] else visBoxesList collapsed cs)

def visBoxesList (collapsed : List ℕ) : List PNode → List Box
  | [] => []
  | c :: cs => visBoxes collapsed c ++ visBoxesList collapsed cs
end

/-- Two open intervals `(a1, b1)` and `(a2, b2)` overlap. -/
def openOverlap (a1 b1 a2 b2 : ℚ) : Prop := max a1 a2 < min b1 b2

/-- The interiors of two boxes are disjoint: they fail to overlap on at
least one axis. -/
def boxDisjoint (a b : Box) : Prop :=
  ¬(openOverlap (a.x - a.w / 2) (a.x + a.w / 2) (b.x - b.w / 2) (b.x + b.w / 2) ∧
    openOverlap (a.y - a.h / 2) (a.y + a.h / 2) (b.y - b.h / 2) (b.y + b.h / 2))

/-- The layout portion of `_renderInternal` (index.js lines 1191-1202), up
to the boxes handed to drawing: build, assign directions, size, compute
spacing, lay out, and collect the visible boxes.  `render` itself clears
the collapse set first, i.e. calls this with `collapsed = []`. -/
def renderBoxes (o : Options) (measure : String → ℚ → ℚ) (collapsed : List ℕ)
    (d : JVal) : Except JsError (List Box) :=
  match buildTree d (-1) 0 0 with
  | .error e => .error e
  | .ok (t, _) =>
    let sized := computeSizes o measure (assignDirections o.layout t)
    let sp := computeAdaptiveSpacing o sized
    .ok (visBoxes collapsed (layoutTree o sp collapsed sized))

/-- The input of the spec scenario: `{topic:"Root", children:[{topic:"A"},{topic:"B"},{topic:"C"}]}`. -/
def inputRootABC : JVal :=
  .obj (some "Root") none none (some (.arr
    [.obj (some "A") none none none,
     .obj (some "B") none none none,
     .obj (some "C") none none none]))

/-- The built tree of the scenario input. -/
def builtRootABC : Node :=
  Node.mk (buildInfo inputRootABC (-1) 0 0)
    [Node.mk (buildInfo (.obj (some "A") none none none) 0 1 1) [],
     Node.mk (buildInfo (.obj (some "B") none none none) 1 1 2) [],
     Node.mk (buildInfo (.obj (some "C") none none none) 2 1 3) []]

/-- A configured palette of three colors, exercising the claim's
"configured color palette" reading. -/
def palette3 : List String := ["#111111", "#222222", "#333333"]

def optsPalette3 : Options := { defaultOptions with colors := palette3 }

/-- A root with four children, so one child ordinal (3) reaches beyond a
three-color palette. -/
def input4 : JVal :=
  .obj (some "Root") none none (some (.arr
    [.obj (some "A") none none none,
     .obj (some "B") none none none,
     .obj (some "C") none none none,
     .obj (some "D") none none none]))

/-- Five unpinned depth-1 children for instantiating C1. -/
def fiveFloats : List Node :=
  [Node.mk (NodeInfo.mk "a" none none 1 0 1) [],
   Node.mk (NodeInfo.mk "b" none none 1 1 2) [],
   Node.mk (NodeInfo.mk "c" none none 1 2 3) [],
   Node.mk (NodeInfo.mk "d" none none 1 3 4) [],
   Node.mk (NodeInfo.mk "e" none none 1 4 5) []]

/-- A child pinned to the unrecognized value "up". -/
def weirdChild : Node :=
  Node.mk (NodeInfo.mk "w" none (some "up") 1 1 2)
    [Node.mk (NodeInfo.mk "wk" none none 2 1 3) []]

/-- A line the wrap contract allows: it fits the budget, or it is a single
character (necessarily one whose own width exceeds the budget when the
first disjunct fails). -/
def goodLine (measure : String → ℚ) (maxPx : ℚ) (l : String) : Prop :=
  measure l ≤ maxPx ∨ l.length = 1

/-- A sized test node of given depth (10×10 box). -/
def sTest (depth : ℕ) (cs : List SNode) : SNode :=
  SNode.mk (SInfo.mk "t" none none depth 0 0 [] 10 10) cs

/-- A chain reaching depth 6. -/
def chain6 : SNode :=
  sTest 0 [sTest 1 [sTest 2 [sTest 3 [sTest 4 [sTest 5 [sTest 6 []]]]]]]

/-- The measurer that reports width -5 for everything (a negative result,
which the claim says must abort layout). -/
def negMeasure : String → ℚ → ℚ := fun _ _ => -5

/-- The input `{topic:"Root", children:[{topic:"A"}]}`. -/
def rootA : JVal :=
  .obj (some "Root") none none (some (.arr [.obj (some "A") none none none]))

/-- The tree built from `rootA`. -/
def rootABuilt : Node :=
  Node.mk (NodeInfo.mk "Root" none none 0 (-1) 0)
    [Node.mk (NodeInfo.mk "A" none none 1 0 1) []]

/-- Tree `rootABuilt` after auto direction assignment: A goes right. -/
def rootADirected : Node :=
  Node.mk (NodeInfo.mk "Root" none none 0 (-1) 0)
    [Node.mk (NodeInfo.mk "A" none (some "right") 1 0 1) []]

/-- Tree `rootADirected` sized with the -5 measurer: every width collapses to
the padding term (56 and 36), the heights to one line each. -/
def rootANegSized : SNode :=
  SNode.mk (SInfo.mk "Root" none none 0 (-1) 0 ["Root"] 56 57)
    [SNode.mk (SInfo.mk "A" none (some "right") 1 0 1 ["A"] 36 41) []]

/-- All widths and heights in a sized tree are nonnegative (what
`_computeSizes` produces for nonnegative paddings, since the widest-line
reduce starts at 0 and line counts are at least 1). -/
def nonnegSizes (t : SNode) : Prop := ∀ inf ∈ sInfos t, 0 ≤ inf.width ∧ 0 ≤ inf.height

/-- All five effective gaps are nonnegative (what `_computeAdaptiveSpacing`
produces for positive bases and multiplier). -/
def spNonneg (sp : Sp) : Prop :=
  0 ≤ sp.branchSpacingX ∧ 0 ≤ sp.subSpacingX ∧ 0 ≤ sp.verticalSpacingY ∧
    0 ≤ sp.horizontalSpacing ∧ 0 ≤ sp.verticalSpacing

/-- The box sits on the far side of the vertical line `a`, in the
direction of sign `σ`. -/
def beyondX (σ a : ℚ) (b : Box) : Prop := σ * a ≤ σ * b.x - b.w / 2

/-- The box sits on the far side of the horizontal line `a`, in the
direction of sign `σ`. -/
def beyondY (σ a : ℚ) (b : Box) : Prop := σ * a ≤ σ * b.y - b.h / 2

/-- The box lies within the vertical band `[lo, hi]`. -/
def inBandY (lo hi : ℚ) (b : Box) : Prop := lo ≤ b.y - b.h / 2 ∧ b.y + b.h / 2 ≤ hi

/-- The box lies within the horizontal band `[lo, hi]`. -/
def inBandX (lo hi : ℚ) (b : Box) : Prop := lo ≤ b.x - b.w / 2 ∧ b.x + b.w / 2 ≤ hi

/-- The sign of a horizontal direction: `_layoutNode` treats exactly the
string "right" as rightward and anything else as leftward. -/
def hSign (dir : String) : ℚ := if dir = "right" then 1 else -1

/-- The per-subtree invariant of `_layoutNode`: every visible box stays on
the far side of the anchor and inside the subtree's footprint band, and
the boxes are pairwise interior-disjoint. -/
def hNodeOK (sp : Sp) (col : List ℕ) (dir : String) (t : SNode) : Prop :=
  ∀ anchorX y : ℚ, nonnegSizes t →
    (∀ b ∈ visBoxes col (layoutNode sp col dir anchorX y t),
      beyondX (hSign dir) anchorX b ∧
      inBandY (y - subtreeHeight sp col t / 2) (y + subtreeHeight sp col t / 2) b) ∧
    (visBoxes col (layoutNode sp col dir anchorX y t)).Pairwise boxDisjoint

/-- The per-subtree invariant of `_layoutVerticalNode`: every visible box
stays inside the subtree's horizontal footprint band and below (above, for
up) the node's own top edge, and the boxes are pairwise disjoint. -/
def vNodeOK (sp : Sp) (col : List ℕ) (σ : ℚ) (t : SNode) : Prop :=
  ∀ x y : ℚ, nonnegSizes t →
    (∀ b ∈ visBoxes col (layoutVertical sp col σ x y t),
      inBandX (x - subtreeWidth sp col t / 2) (x + subtreeWidth sp col t / 2) b ∧
      σ * y - t.info.height / 2 ≤ σ * b.y - b.h / 2) ∧
    (visBoxes col (layoutVertical sp col σ x y t)).Pairwise boxDisjoint

/-- The option validity C3 assumes: positive multiplier, positive base
gaps. -/
def optsGapsPos (o : Options) : Prop :=
  0 < o.spacing ∧ 0 < o.branchSpacingX ∧ 0 < o.subSpacingX ∧
    0 < o.verticalSpacingY ∧ 0 < o.horizontalSpacing ∧ 0 < o.verticalSpacing

/-- Nonnegative style profiles (true of the defaults). -/
def profilesNonneg (o : Options) : Prop :=
  (∀ d : ℕ, 0 ≤ (profileFor o d).fontSize ∧ 0 ≤ (profileFor o d).paddingX ∧
    0 ≤ (profileFor o d).paddingY ∧ 0 ≤ (profileFor o d).maxWidth) ∧ 0 ≤ o.lineHeight

/-- A measurer reporting width 0 for everything — finite, deterministic,
nonnegative. -/
def measureZero : String → ℚ → ℚ := fun _ _ => 0

/-- A valid configuration (positive multiplier 0.1, default positive base
gaps) with the documented `centerEdge: "vertical"` option. -/
def optsCexC3 : Options := { defaultOptions with centerEdge := "vertical", spacing := 1/10 }

/-! ## Theorems -/

/-- Strong induction over built trees. -/
theorem nodeStrongInd (P : Node → Prop)
    (h : ∀ i cs, (∀ c ∈ cs, P c) → P (.mk i cs)) : ∀ t, P t
  | .mk i cs => h i cs (fun c hc => nodeStrongInd P h c)
termination_by t => sizeOf t
decreasing_by
  simp only [Node.mk.sizeOf_spec]
  have := List.sizeOf_lt_of_mem hc
  omega

/-- Strong induction over raw JSON values. -/
theorem jvalStrongInd (P : JVal → Prop)
    (hnull : P .null) (hnum : ∀ q, P (.num q)) (hstr : ∀ s, P (.str s))
    (harr : ∀ elems, (∀ e ∈ elems, P e) → P (.arr elems))
    (hobjArr : ∀ t u d elems, (∀ e ∈ elems, P e) → P (.obj t u d (some (.arr elems))))
    (hobjOther : ∀ t u d c, (∀ elems, c ≠ some (.arr elems)) → P (.obj t u d c)) :
    ∀ v, P v
  | .null => hnull
  | .num q => hnum q
  | .str s => hstr s
  | .arr elems => harr elems (fun e he => jvalStrongInd P hnull hnum hstr harr hobjArr hobjOther e)
  | .obj t u d (some (.arr elems)) =>
    hobjArr t u d elems (fun e he => jvalStrongInd P hnull hnum hstr harr hobjArr hobjOther e)
  | .obj t u d none => hobjOther t u d none (by intro _ h; cases h)
  | .obj t u d (some .null) => hobjOther t u d (some .null) (by intro _ h; cases h)
  | .obj t u d (some (.num q)) => hobjOther t u d (some (.num q)) (by intro _ h; cases h)
  | .obj t u d (some (.str s)) => hobjOther t u d (some (.str s)) (by intro _ h; cases h)
  | .obj t u d (some (.obj t2 u2 d2 c2)) =>
    hobjOther t u d (some (.obj t2 u2 d2 c2)) (by intro _ h; cases h)
termination_by v => sizeOf v
decreasing_by
  all_goals simp only [JVal.arr.sizeOf_spec, JVal.obj.sizeOf_spec, Option.some.sizeOf_spec]
  · have := List.sizeOf_lt_of_mem he
    omega
  · have := List.sizeOf_lt_of_mem he
    omega

theorem buildChildren_ids_aux (es : List JVal)
    (IH : ∀ e ∈ es, ∀ ci dep k t k1, buildTree e ci dep k = .ok (t, k1) →
      k1 = k + Node.size t ∧ preIds t = List.range' k (Node.size t)) :
    ∀ ci dep k i ns k1, buildChildren es ci dep k i = .ok (ns, k1) →
      k1 = k + sizeList ns ∧ preIdsList ns = List.range' k (sizeList ns) := by
  induction es with
  | nil =>
    intro ci dep k i ns k1 h
    simp only [buildChildren, Except.ok.injEq, Prod.mk.injEq] at h
    obtain ⟨h1, h2⟩ := h
    subst h1 h2
    simp [sizeList, preIdsList]
  | cons e rest ih =>
    intro ci dep k i ns k1 h
    simp only [buildChildren] at h
    cases he : buildTree e (if dep = 0 then ((i % DEFAULT_COLORS.length : ℕ) : ℤ) else ci)
        (dep + 1) k with
    | error er => rw [he] at h; cases h
    | ok p =>
      obtain ⟨n, ctr1⟩ := p
      rw [he] at h
      dsimp only at h
      cases hr : buildChildren rest ci dep ctr1 (i + 1) with
      | error er => rw [hr] at h; cases h
      | ok q =>
        obtain ⟨ns2, ctr2⟩ := q
        rw [hr] at h
        simp only [Except.ok.injEq, Prod.mk.injEq] at h
        obtain ⟨h1, h2⟩ := h
        subst h1 h2
        obtain ⟨hk1, hp1⟩ := IH e (by simp) _ _ _ _ _ he
        obtain ⟨hk2, hp2⟩ := ih (fun x hx => IH x (by simp [hx])) _ _ _ _ _ _ hr
        subst hk1 hk2
        constructor
        · simp [sizeList]; omega
        · simp only [preIdsList, sizeList, hp1, hp2]
          have := List.range'_append k (Node.size n) (sizeList ns2) 1
          simp only [one_mul] at this
          rw [this, Nat.add_comm (sizeList ns2) (Node.size n)]

theorem buildTree_ids (d : JVal) :
    ∀ ci dep k t k1, buildTree d ci dep k = .ok (t, k1) →
      k1 = k + Node.size t ∧ preIds t = List.range' k (Node.size t) := by
  induction d using jvalStrongInd with
  | hnull =>
    intro ci dep k t k1 h
    cases h
  | hnum q =>
    intro ci dep k t k1 h
    simp only [buildTree, Except.ok.injEq, Prod.mk.injEq] at h
    obtain ⟨h1, h2⟩ := h
    subst h1 h2
    simp [Node.size, sizeList, preIds, preIdsList, List.range', buildInfo]
  | hstr s =>
    intro ci dep k t k1 h
    simp only [buildTree, Except.ok.injEq, Prod.mk.injEq] at h
    obtain ⟨h1, h2⟩ := h
    subst h1 h2
    simp [Node.size, sizeList, preIds, preIdsList, List.range', buildInfo]
  | harr elems hIH =>
    intro ci dep k t k1 h
    simp only [buildTree, Except.ok.injEq, Prod.mk.injEq] at h
    obtain ⟨h1, h2⟩ := h
    subst h1 h2
    simp [Node.size, sizeList, preIds, preIdsList, List.range', buildInfo]
  | hobjArr t0 u0 d0 elems hIH =>
    intro ci dep k t k1 h
    simp only [buildTree] at h
    cases hc : buildChildren elems ci dep (k + 1) 0 with
    | error er => rw [hc] at h; cases h
    | ok p =>
      obtain ⟨cs, ctr2⟩ := p
      rw [hc] at h
      simp only [Except.ok.injEq, Prod.mk.injEq] at h
      obtain ⟨h1, h2⟩ := h
      subst h1 h2
      obtain ⟨hk, hp⟩ := buildChildren_ids_aux elems hIH _ _ _ _ _ _ hc
      subst hk
      refine ⟨by simp [Node.size]; omega, ?_⟩
      simp only [preIds, Node.size, hp]
      have : 1 + sizeList cs = sizeList cs + 1 := by omega
      rw [this, List.range'_succ]
      simp [buildInfo]
  | hobjOther t0 u0 d0 c hne =>
    intro ci dep k t k1 h
    have hsplit : buildTree (.obj t0 u0 d0 c) ci dep k =
        .ok (.mk (buildInfo (.obj t0 u0 d0 c) ci dep k) [], k + 1) := by
      cases c with
      | none => rfl
      | some v =>
        cases v with
        | null => rfl
        | num q => rfl
        | str s => rfl
        | arr es => exact absurd rfl (hne es)
        | obj a b e f => rfl
    rw [hsplit] at h
    simp only [Except.ok.injEq, Prod.mk.injEq] at h
    obtain ⟨h1, h2⟩ := h
    subst h1 h2
    simp [Node.size, sizeList, preIds, preIdsList, List.range', buildInfo]

/-- C6: for every input on which tree building succeeds, the assigned ids,
read in depth-first preorder (node before its children, children in array
order), are exactly 0..n-1 where n is the node count — hence unique, with
the root receiving 0; on the scenario input `{topic:"Root",
children:[A,B,C]}` the ids are root=0, A=1, B=2, C=3. -/
theorem C6_ids_depth_first (d : JVal) (t : Node) (n : ℕ)
    (h : buildTree d (-1) 0 0 = .ok (t, n)) :
    preIds t = List.range (Node.size t) ∧ n = Node.size t ∧
    (buildTree inputRootABC (-1) 0 0).map (fun p => (preIds p.1, p.2)) =
      .ok ([0, 1, 2, 3], 4) := by
  obtain ⟨hk, hp⟩ := buildTree_ids d (-1) 0 0 t n h
  refine ⟨?_, by omega, by rfl⟩
  rw [hp, List.range_eq_range']

/-- C6 witness: the scenario input itself instantiates the theorem. -/
theorem C6_ids_depth_first_witness :
    preIds (Node.mk (buildInfo inputRootABC (-1) 0 0)
      [Node.mk (buildInfo (.obj (some "A") none none none) 0 1 1) [],
       Node.mk (buildInfo (.obj (some "B") none none none) 1 1 2) [],
       Node.mk (buildInfo (.obj (some "C") none none none) 2 1 3) []]) =
      List.range (Node.size (Node.mk (buildInfo inputRootABC (-1) 0 0)
      [Node.mk (buildInfo (.obj (some "A") none none none) 0 1 1) [],
       Node.mk (buildInfo (.obj (some "B") none none none) 1 1 2) [],
       Node.mk (buildInfo (.obj (some "C") none none none) 2 1 3) []])) := by
  have h := C6_ids_depth_first inputRootABC
    (Node.mk (buildInfo inputRootABC (-1) 0 0)
      [Node.mk (buildInfo (.obj (some "A") none none none) 0 1 1) [],
       Node.mk (buildInfo (.obj (some "B") none none none) 1 1 2) [],
       Node.mk (buildInfo (.obj (some "C") none none none) 2 1 3) []]) 4 (by rfl)
  exact h.1

theorem mem_nodesOfList (cs : List Node) (inf : NodeInfo)
    (h : inf ∈ nodesOfList cs) : ∃ c ∈ cs, inf ∈ nodesOf c := by
  induction cs with
  | nil => cases h
  | cons c rest ih =>
    simp only [nodesOfList, List.mem_append] at h
    rcases h with hl | hr
    · exact ⟨c, by simp, hl⟩
    · obtain ⟨c2, hc2, hinf⟩ := ih hr
      exact ⟨c2, by simp [hc2], hinf⟩

theorem buildChildren_color_aux (es : List JVal)
    (IH : ∀ e ∈ es, ∀ ci dep k t k1, 1 ≤ dep → buildTree e ci dep k = .ok (t, k1) →
      ∀ inf ∈ nodesOf t, inf.colorIdx = ci) :
    ∀ ci dep k i ns k1, 1 ≤ dep → buildChildren es ci dep k i = .ok (ns, k1) →
      ∀ c ∈ ns, ∀ inf ∈ nodesOf c, inf.colorIdx = ci := by
  induction es with
  | nil =>
    intro ci dep k i ns k1 hdep h
    simp only [buildChildren, Except.ok.injEq, Prod.mk.injEq] at h
    obtain ⟨h1, h2⟩ := h
    subst h1
    simp
  | cons e rest ih =>
    intro ci dep k i ns k1 hdep h
    simp only [buildChildren] at h
    rw [if_neg (by omega)] at h
    cases he : buildTree e ci (dep + 1) k with
    | error er => rw [he] at h; cases h
    | ok p =>
      obtain ⟨n, ctr1⟩ := p
      rw [he] at h
      dsimp only at h
      cases hr : buildChildren rest ci dep ctr1 (i + 1) with
      | error er => rw [hr] at h; cases h
      | ok q =>
        obtain ⟨ns2, ctr2⟩ := q
        rw [hr] at h
        simp only [Except.ok.injEq, Prod.mk.injEq] at h
        obtain ⟨h1, h2⟩ := h
        subst h1
        intro c hc inf hinf
        rcases List.mem_cons.mp hc with hcn | hcr
        · subst hcn
          exact IH e (by simp) ci (dep + 1) k _ ctr1 (by omega) he inf hinf
        · exact ih (fun x hx => IH x (by simp [hx])) ci dep ctr1 (i + 1) ns2 ctr2 hdep hr
            c hcr inf hinf

/-- Below the root, `_buildTree` hands the parent's `colorIdx` to every
child unchanged, so a whole depth-1 subtree shares one color index. -/
theorem buildTree_color (d : JVal) :
    ∀ ci dep k t k1, 1 ≤ dep → buildTree d ci dep k = .ok (t, k1) →
      ∀ inf ∈ nodesOf t, inf.colorIdx = ci := by
  induction d using jvalStrongInd with
  | hnull => intro ci dep k t k1 _ h; cases h
  | hnum q =>
    intro ci dep k t k1 _ h
    simp only [buildTree, Except.ok.injEq, Prod.mk.injEq] at h
    obtain ⟨h1, _⟩ := h
    subst h1
    simp [nodesOf, nodesOfList, buildInfo]
  | hstr s =>
    intro ci dep k t k1 _ h
    simp only [buildTree, Except.ok.injEq, Prod.mk.injEq] at h
    obtain ⟨h1, _⟩ := h
    subst h1
    simp [nodesOf, nodesOfList, buildInfo]
  | harr elems hIH =>
    intro ci dep k t k1 _ h
    simp only [buildTree, Except.ok.injEq, Prod.mk.injEq] at h
    obtain ⟨h1, _⟩ := h
    subst h1
    simp [nodesOf, nodesOfList, buildInfo]
  | hobjArr t0 u0 d0 elems hIH =>
    intro ci dep k t k1 hdep h
    simp only [buildTree] at h
    cases hc : buildChildren elems ci dep (k + 1) 0 with
    | error er => rw [hc] at h; cases h
    | ok p =>
      obtain ⟨cs, ctr2⟩ := p
      rw [hc] at h
      simp only [Except.ok.injEq, Prod.mk.injEq] at h
      obtain ⟨h1, _⟩ := h
      subst h1
      intro inf hinf
      simp only [nodesOf, List.mem_cons] at hinf
      rcases hinf with hroot | hrest
      · subst hroot; simp [buildInfo]
      · obtain ⟨c, hcmem, hcinf⟩ := mem_nodesOfList cs inf hrest
        exact buildChildren_color_aux elems hIH ci dep (k + 1) 0 cs ctr2 hdep hc c hcmem
          inf hcinf
  | hobjOther t0 u0 d0 c hne =>
    intro ci dep k t k1 _ h
    have hsplit : buildTree (.obj t0 u0 d0 c) ci dep k =
        .ok (.mk (buildInfo (.obj t0 u0 d0 c) ci dep k) [], k + 1) := by
      cases c with
      | none => rfl
      | some v =>
        cases v with
        | null => rfl
        | num q => rfl
        | str s => rfl
        | arr es => exact absurd rfl (hne es)
        | obj a b e f => rfl
    rw [hsplit] at h
    simp only [Except.ok.injEq, Prod.mk.injEq] at h
    obtain ⟨h1, _⟩ := h
    subst h1
    simp [nodesOf, nodesOfList, buildInfo]

/-- The root-level `forEach`: the child at running index `i + j` gets color
index `(i + j) % DEFAULT_COLORS.length`, inherited by its whole subtree. -/
theorem buildChildren_color_zero (es : List JVal) :
    ∀ ci k i ns k1, buildChildren es ci 0 k i = .ok (ns, k1) →
      ∀ j c, ns[j]? = some c →
        ∀ inf ∈ nodesOf c, inf.colorIdx = (((i + j) % DEFAULT_COLORS.length : ℕ) : ℤ) := by
  induction es with
  | nil =>
    intro ci k i ns k1 h
    simp only [buildChildren, Except.ok.injEq, Prod.mk.injEq] at h
    obtain ⟨h1, _⟩ := h
    subst h1
    intro j c hc
    simp at hc
  | cons e rest ih =>
    intro ci k i ns k1 h
    simp only [buildChildren, if_pos] at h
    cases he : buildTree e ((i % DEFAULT_COLORS.length : ℕ) : ℤ) 1 k with
    | error er => rw [he] at h; cases h
    | ok p =>
      obtain ⟨n, ctr1⟩ := p
      rw [he] at h
      dsimp only at h
      cases hr : buildChildren rest ci 0 ctr1 (i + 1) with
      | error er => rw [hr] at h; cases h
      | ok q =>
        obtain ⟨ns2, ctr2⟩ := q
        rw [hr] at h
        simp only [Except.ok.injEq, Prod.mk.injEq] at h
        obtain ⟨h1, _⟩ := h
        subst h1
        intro j c hc
        cases j with
        | zero =>
          simp only [List.getElem?_cons_zero, Option.some.injEq] at hc
          subst hc
          intro inf hinf
          have := buildTree_color e _ 1 k n ctr1 (by omega) he inf hinf
          simpa using this
        | succ j2 =>
          simp only [List.getElem?_cons_succ] at hc
          intro inf hinf
          have := ih ci ctr1 (i + 1) ns2 ctr2 hr j2 c hc inf hinf
          have harith : i + 1 + j2 = i + (j2 + 1) := by omega
          rw [harith] at this
          exact this

theorem C7_aux_depth1 (elems : List JVal) (ci : ℤ) (k : ℕ) (ns : List Node) (k1 : ℕ)
    (h : buildChildren elems ci 0 k 0 = .ok (ns, k1)) :
    ∀ j c, ns[j]? = some c →
      ∀ inf ∈ nodesOf c, inf.colorIdx = ((j % DEFAULT_COLORS.length : ℕ) : ℤ) := by
  intro j c hc inf hinf
  have := buildChildren_color_zero elems ci k 0 ns k1 h j c hc inf hinf
  simpa using this

/-- C7 counterexample: with a configured palette of 3 colors, the depth-1
child at ordinal 3 receives colorIndex 3 (the build always reduces modulo
the built-in 10-color `DEFAULT_COLORS`), while the claim predicts
3 mod 3 = 0. -/
theorem C7_counterexample :
    optsPalette3.colors.length = 3 ∧
    (buildTree input4 (-1) 0 0).map (fun p => (nodesOf p.1).map NodeInfo.colorIdx) =
      .ok [-1, 0, 1, 2, 3] ∧
    (3 : ℤ) % (optsPalette3.colors.length : ℤ) = 0 ∧ (3 : ℤ) ≠ 0 := by
  exact ⟨rfl, rfl, by decide, by decide⟩

/-- C7 (amended): after building, the root's colorIndex is the sentinel -1;
the depth-1 child at ordinal i has colorIndex i mod DEFAULT_COLORS.length
(the built-in palette size, 10, independent of the configured palette); and
every deeper node inherits its depth-1 ancestor's value. -/
theorem C7_colorIdx (d : JVal) (t : Node) (n : ℕ)
    (h : buildTree d (-1) 0 0 = .ok (t, n)) :
    t.info.colorIdx = -1 ∧
    ∀ j c, t.children[j]? = some c →
      ∀ inf ∈ nodesOf c, inf.colorIdx = ((j % DEFAULT_COLORS.length : ℕ) : ℤ) := by
  cases d with
  | null => cases h
  | num q =>
    simp only [buildTree, Except.ok.injEq, Prod.mk.injEq] at h
    obtain ⟨h1, _⟩ := h
    subst h1
    refine ⟨rfl, ?_⟩
    intro j c hc
    simp [Node.children] at hc
  | str s =>
    simp only [buildTree, Except.ok.injEq, Prod.mk.injEq] at h
    obtain ⟨h1, _⟩ := h
    subst h1
    refine ⟨rfl, ?_⟩
    intro j c hc
    simp [Node.children] at hc
  | arr es =>
    simp only [buildTree, Except.ok.injEq, Prod.mk.injEq] at h
    obtain ⟨h1, _⟩ := h
    subst h1
    refine ⟨rfl, ?_⟩
    intro j c hc
    simp [Node.children] at hc
  | obj t0 u0 d0 c =>
    cases hc0 : c with
    | some v =>
      cases v with
      | arr elems =>
        subst hc0
        simp only [buildTree] at h
        cases hb : buildChildren elems (-1) 0 1 0 with
        | error er => rw [hb] at h; cases h
        | ok p =>
          obtain ⟨cs, ctr2⟩ := p
          rw [hb] at h
          simp only [Except.ok.injEq, Prod.mk.injEq] at h
          obtain ⟨h1, _⟩ := h
          subst h1
          exact ⟨rfl, C7_aux_depth1 elems (-1) 1 cs ctr2 hb⟩
      | null =>
        subst hc0
        simp only [buildTree, Except.ok.injEq, Prod.mk.injEq] at h
        obtain ⟨h1, _⟩ := h
        subst h1
        exact ⟨rfl, by intro j c hc; simp [Node.children] at hc⟩
      | num q =>
        subst hc0
        simp only [buildTree, Except.ok.injEq, Prod.mk.injEq] at h
        obtain ⟨h1, _⟩ := h
        subst h1
        exact ⟨rfl, by intro j c hc; simp [Node.children] at hc⟩
      | str s =>
        subst hc0
        simp only [buildTree, Except.ok.injEq, Prod.mk.injEq] at h
        obtain ⟨h1, _⟩ := h
        subst h1
        exact ⟨rfl, by intro j c hc; simp [Node.children] at hc⟩
      | obj t2 u2 d2 c2 =>
        subst hc0
        simp only [buildTree, Except.ok.injEq, Prod.mk.injEq] at h
        obtain ⟨h1, _⟩ := h
        subst h1
        exact ⟨rfl, by intro j c hc; simp [Node.children] at hc⟩
    | none =>
      subst hc0
      simp only [buildTree, Except.ok.injEq, Prod.mk.injEq] at h
      obtain ⟨h1, _⟩ := h
      subst h1
      exact ⟨rfl, by intro j c hc; simp [Node.children] at hc⟩

/-- C7 witness: the scenario tree instantiates the theorem; its root is the
sentinel and its second child's subtree carries color index 1. -/
theorem C7_colorIdx_witness :
    builtRootABC.info.colorIdx = -1 ∧
    ∀ inf ∈ nodesOf (Node.mk (buildInfo (.obj (some "B") none none none) 1 1 2) []),
      inf.colorIdx = ((1 % DEFAULT_COLORS.length : ℕ) : ℤ) := by
  have h := C7_colorIdx inputRootABC builtRootABC 4 (by rfl)
  exact ⟨h.1, h.2 1 (Node.mk (buildInfo (.obj (some "B") none none none) 1 1 2) []) rfl⟩

/-- C8 counterexample: a numeric root (a non-object) does not raise any
error — tree building succeeds and yields a one-node tree (id 0, empty
topic, no children); the source has no ValidationError at all. -/
theorem C8_counterexample :
    buildTree (JVal.num 5) (-1) 0 0 =
      .ok (.mk (NodeInfo.mk "" none none 0 (-1) 0) [], 1) := by
  rfl

/-- C8 (amended): only a null root makes tree building fail, with the JS
TypeError of reading a property of null (no ValidationError exists in the
source); numeric, string and array roots are silently accepted and produce
a single leaf node with empty topic and no children. -/
theorem C8_nonobject_root :
    (∀ ci dep k, buildTree JVal.null ci dep k = .error .typeError) ∧
    (∀ q ci dep k, buildTree (JVal.num q) ci dep k =
      .ok (.mk (buildInfo (.num q) ci dep k) [], k + 1)) ∧
    (∀ s ci dep k, buildTree (JVal.str s) ci dep k =
      .ok (.mk (buildInfo (.str s) ci dep k) [], k + 1)) ∧
    (∀ es ci dep k, buildTree (JVal.arr es) ci dep k =
      .ok (.mk (buildInfo (.arr es) ci dep k) [], k + 1)) ∧
    (∀ d ci dep k, (buildInfo d ci dep k).topic = jsTopicOf d.topicField) ∧
    (∀ q ci dep k, (buildInfo (JVal.num q) ci dep k).topic = "") := by
  exact ⟨fun _ _ _ => rfl, fun _ _ _ _ => rfl, fun _ _ _ _ => rfl, fun _ _ _ _ => rfl,
    fun _ _ _ _ => rfl, fun _ _ _ _ => rfl⟩

theorem setDirection_info (c : Node) (d : Option String) :
    (setDirection c d).info = { c.info with direction := d } := by
  cases c; rfl

theorem propagateDir_info (c : Node) (d : Option String) :
    (propagateDir c d).info = { c.info with direction := d } := by
  cases c; rfl

theorem propagateDirList_eq_map (cs : List Node) (d : Option String) :
    propagateDirList cs d = cs.map (fun c => propagateDir c d) := by
  induction cs with
  | nil => rfl
  | cons c rest ih => simp [propagateDirList, ih]

/-- Function `_propagateDir` stamps the direction on every node of the subtree. -/
theorem propagateDir_all (t : Node) : ∀ d, ∀ inf ∈ nodesOf (propagateDir t d),
    inf.direction = d := by
  induction t using nodeStrongInd with
  | h i cs ih =>
    intro d inf hinf
    simp only [propagateDir, nodesOf, List.mem_cons] at hinf
    rcases hinf with hself | hrest
    · subst hself; rfl
    · rw [propagateDirList_eq_map] at hrest
      obtain ⟨c2, hc2, hinf2⟩ := mem_nodesOfList _ inf hrest
      obtain ⟨c, hc, hc2eq⟩ := List.mem_map.mp hc2
      subst hc2eq
      exact ih c hc d inf hinf2

theorem assignFloats_cons_float (c : Node) (rest : List Node) (rc lc : ℕ)
    (h : jsFalsyDir c.info.direction = true) :
    assignFloats rc lc (c :: rest) =
      if rc ≤ lc then setDirection c (some "right") :: assignFloats (rc + 1) lc rest
      else setDirection c (some "left") :: assignFloats rc (lc + 1) rest := by
  simp [assignFloats, h]

theorem assignFloats_cons_fixed (c : Node) (rest : List Node) (rc lc : ℕ)
    (h : jsFalsyDir c.info.direction = false) :
    assignFloats rc lc (c :: rest) = c :: assignFloats rc lc rest := by
  simp [assignFloats, h]

theorem specGreedy_cons_pin (d : Option String) (rest : List (Option String)) (rc lc : ℕ)
    (h : d = some "left" ∨ d = some "right") :
    specGreedy rc lc (d :: rest) = d :: specGreedy rc lc rest := by
  simp only [specGreedy]
  rw [if_pos h]

theorem specGreedy_cons_unpin (d : Option String) (rest : List (Option String)) (rc lc : ℕ)
    (h : ¬(d = some "left" ∨ d = some "right")) :
    specGreedy rc lc (d :: rest) =
      if rc < lc then some "right" :: specGreedy (rc + 1) lc rest
      else if lc < rc then some "left" :: specGreedy rc (lc + 1) rest
      else some "right" :: specGreedy (rc + 1) lc rest := by
  simp only [specGreedy]
  rw [if_neg h]

/-- The float-assignment loop agrees with the spec's greedy description
whenever every direction is unset or a recognized side. -/
theorem assignFloats_spec (cs : List Node) :
    ∀ rc lc, (∀ c ∈ cs, c.info.direction = none ∨ c.info.direction = some "left" ∨
      c.info.direction = some "right") →
    (assignFloats rc lc cs).map (fun c => c.info.direction) =
      specGreedy rc lc (cs.map (fun c => c.info.direction)) := by
  induction cs with
  | nil => intro rc lc _; rfl
  | cons c rest ih =>
    intro rc lc h
    have hrest := fun x hx => h x (List.mem_cons_of_mem c hx)
    rcases h c (List.mem_cons_self c rest) with hnone | hside | hside
    · rw [assignFloats_cons_float c rest rc lc (by simp [jsFalsyDir, hnone]),
        List.map_cons, specGreedy_cons_unpin _ _ rc lc (by simp [hnone])]
      by_cases h1 : rc < lc
      · rw [if_pos (by omega : rc ≤ lc), if_pos h1, List.map_cons, setDirection_info]
        exact congrArg _ (ih (rc + 1) lc hrest)
      · by_cases h2 : lc < rc
        · rw [if_neg (by omega : ¬ rc ≤ lc), if_neg h1, if_pos h2, List.map_cons,
            setDirection_info]
          exact congrArg _ (ih rc (lc + 1) hrest)
        · rw [if_pos (by omega : rc ≤ lc), if_neg h1, if_neg h2, List.map_cons,
            setDirection_info]
          exact congrArg _ (ih (rc + 1) lc hrest)
    all_goals
      rw [assignFloats_cons_fixed c rest rc lc (by simp [jsFalsyDir, hside]),
        List.map_cons, List.map_cons, hside,
        specGreedy_cons_pin _ _ rc lc (by simp), ih rc lc hrest]

theorem countDir_eq_filter_map (cs : List Node) (s : String) :
    countDir cs s =
      ((cs.map (fun c => c.info.direction)).filter (fun d => d = some s)).length := by
  simp only [countDir, List.filter_map, List.length_map]
  rfl

/-- C1: in auto mode, for any tree whose top-level directions are unset or a
recognized side, the assigned top-level directions equal the spec's greedy
description (pins kept where they stand, floats to the strictly smaller
side, ties to the right, counts seeded with the pins); and any tree with
exactly five unpinned top-level children and no pins comes out
right, left, right, left, right (3 right, 2 left). -/
theorem C1_auto_balance (i : NodeInfo) (cs : List Node)
    (h : ∀ c ∈ cs, c.info.direction = none ∨ c.info.direction = some "left" ∨
      c.info.direction = some "right") :
    topDirs (assignDirections "auto" (.mk i cs)) =
      specAssign (cs.map (fun c => c.info.direction)) ∧
    (cs.length = 5 → (∀ c ∈ cs, c.info.direction = none) →
      topDirs (assignDirections "auto" (.mk i cs)) =
        [some "right", some "left", some "right", some "left", some "right"]) := by
  have key : topDirs (assignDirections "auto" (.mk i cs)) =
      specAssign (cs.map (fun c => c.info.direction)) := by
    simp only [assignDirections, topDirs, Node.children]
    rw [if_neg (by simp), if_neg (by simp), if_neg (by simp)]
    simp only [List.map_map]
    have hmap : ∀ xs : List Node,
        xs.map ((fun c => c.info.direction) ∘ fun c => propagateDir c c.info.direction) =
        xs.map (fun c => c.info.direction) := by
      intro xs
      apply List.map_congr_left
      intro x _
      simp [Function.comp, propagateDir_info]
    rw [hmap]
    rw [assignFloats_spec cs _ _ h]
    simp only [specAssign, countDir_eq_filter_map]
  refine ⟨key, ?_⟩
  intro hlen hnone
  rw [key]
  have hdirs : cs.map (fun c => c.info.direction) = List.replicate 5 none := by
    rw [List.eq_replicate_iff]
    constructor
    · simp [hlen]
    · intro b hb
      obtain ⟨c, hc, hbc⟩ := List.mem_map.mp hb
      rw [← hbc]
      exact hnone c hc
  rw [hdirs]
  rfl

theorem assignDirections_auto_children (i : NodeInfo) (cs : List Node) :
    (assignDirections "auto" (Node.mk i cs)).children =
      (assignFloats (countDir cs "right") (countDir cs "left") cs).map
        (fun c => propagateDir c c.info.direction) := by
  simp only [assignDirections, Node.children]
  rw [if_neg (by simp), if_neg (by simp), if_neg (by simp)]

theorem countDir_append (xs ys : List Node) (s : String) :
    countDir (xs ++ ys) s = countDir xs s + countDir ys s := by
  simp [countDir, List.filter_append]

theorem countDir_cons_skip (w : Node) (ys : List Node) (s : String)
    (h : w.info.direction ≠ some s) :
    countDir (w :: ys) s = countDir ys s := by
  simp [countDir, List.filter_cons, h]

/-- A child the float loop does not recognize as a float passes through in
place and leaves the running counts untouched, wherever it sits. -/
theorem assignFloats_weird (w : Node) (hw : jsFalsyDir w.info.direction = false)
    (ys : List Node) :
    ∀ xs rc lc, assignFloats rc lc (xs ++ w :: ys) =
      (assignFloats rc lc (xs ++ ys)).take xs.length ++
        w :: (assignFloats rc lc (xs ++ ys)).drop xs.length := by
  intro xs
  induction xs with
  | nil =>
    intro rc lc
    simp [assignFloats_cons_fixed w ys rc lc hw]
  | cons x xs ih =>
    intro rc lc
    by_cases hx : jsFalsyDir x.info.direction = true
    · rw [List.cons_append, assignFloats_cons_float x _ rc lc hx,
        List.cons_append, assignFloats_cons_float x _ rc lc hx]
      by_cases h1 : rc ≤ lc
      · rw [if_pos h1, if_pos h1, ih (rc + 1) lc]
        simp
      · rw [if_neg h1, if_neg h1, ih rc (lc + 1)]
        simp
    · have hx2 : jsFalsyDir x.info.direction = false := by
        cases hb : jsFalsyDir x.info.direction
        · rfl
        · exact absurd hb hx
      rw [List.cons_append, assignFloats_cons_fixed x _ rc lc hx2,
        List.cons_append, assignFloats_cons_fixed x _ rc lc hx2, ih rc lc]
      simp

/-- C10: in auto mode a top-level child pinned to a truthy string other
than left/right (e.g. "up") joins neither the pinned counts nor the float
pool — the other children receive exactly the directions they would receive
without it — and its unrecognized value is propagated verbatim to every
node of its subtree. -/
theorem C10_unrecognized_pin (i : NodeInfo) (xs ys : List Node) (w : Node) (d : String)
    (hd : w.info.direction = some d) (hL : d ≠ "left") (hR : d ≠ "right") (hE : d ≠ "") :
    (assignDirections "auto" (Node.mk i (xs ++ w :: ys))).children =
      ((assignDirections "auto" (Node.mk i (xs ++ ys))).children.take xs.length) ++
        propagateDir w (some d) ::
        ((assignDirections "auto" (Node.mk i (xs ++ ys))).children.drop xs.length) ∧
    ∀ inf ∈ nodesOf (propagateDir w (some d)), inf.direction = some d := by
  have hw : jsFalsyDir w.info.direction = false := by
    rw [hd]
    simp [jsFalsyDir, hE]
  have hcr : countDir (xs ++ w :: ys) "right" = countDir (xs ++ ys) "right" := by
    rw [countDir_append, countDir_cons_skip w ys _ (by rw [hd]; simp [hR]), countDir_append]
  have hcl : countDir (xs ++ w :: ys) "left" = countDir (xs ++ ys) "left" := by
    rw [countDir_append, countDir_cons_skip w ys _ (by rw [hd]; simp [hL]), countDir_append]
  constructor
  · rw [assignDirections_auto_children, assignDirections_auto_children, hcr, hcl,
      assignFloats_weird w hw ys xs _ _, List.map_append, List.map_cons,
      List.map_take, List.map_drop]
    rw [hd]
  · exact propagateDir_all w (some d)

/-- C1 witness: five unpinned children really alternate right, left, right,
left, right. -/
theorem C1_auto_balance_witness :
    topDirs (assignDirections "auto" (Node.mk (NodeInfo.mk "Root" none none 0 (-1) 0)
      fiveFloats)) =
      [some "right", some "left", some "right", some "left", some "right"] := by
  have h := C1_auto_balance (NodeInfo.mk "Root" none none 0 (-1) 0) fiveFloats
    (by intro c hc; fin_cases hc <;> simp [Node.info, fiveFloats])
  exact h.2 (by rfl) (by intro c hc; fin_cases hc <;> simp [Node.info, fiveFloats])

/-- C10 witness: with children [a, w("up"), b], the unrecognized pin drops
out of the balance and its subtree keeps direction "up" everywhere. -/
theorem C10_unrecognized_pin_witness :
    (assignDirections "auto" (Node.mk (NodeInfo.mk "R" none none 0 (-1) 0)
      ([Node.mk (NodeInfo.mk "a" none none 1 0 1) []] ++ weirdChild ::
        [Node.mk (NodeInfo.mk "b" none none 1 2 4) []]))).children =
      ((assignDirections "auto" (Node.mk (NodeInfo.mk "R" none none 0 (-1) 0)
        ([Node.mk (NodeInfo.mk "a" none none 1 0 1) []] ++
          [Node.mk (NodeInfo.mk "b" none none 1 2 4) []]))).children.take 1) ++
        propagateDir weirdChild (some "up") ::
        ((assignDirections "auto" (Node.mk (NodeInfo.mk "R" none none 0 (-1) 0)
          ([Node.mk (NodeInfo.mk "a" none none 1 0 1) []] ++
            [Node.mk (NodeInfo.mk "b" none none 1 2 4) []]))).children.drop 1) := by
  have h := C10_unrecognized_pin (NodeInfo.mk "R" none none 0 (-1) 0)
    [Node.mk (NodeInfo.mk "a" none none 1 0 1) []]
    [Node.mk (NodeInfo.mk "b" none none 1 2 4) []]
    weirdChild "up" (by rfl) (by decide) (by decide) (by decide)
  exact h.1

theorem splitWordsGo_all_ws : ∀ l : List Char, (∀ c ∈ l, c.isWhitespace = true) →
    splitWordsGo [] l = [] := by
  intro l
  induction l with
  | nil => intro _; rfl
  | cons c rest ih =>
    intro h
    simp only [splitWordsGo, h c (by simp), if_true, if_pos rfl]
    exact ih (fun x hx => h x (by simp [hx]))

theorem splitWordsGo_mem_ne_nil : ∀ (l : List Char) (cur : List Char),
    ∀ w ∈ splitWordsGo cur l, w ≠ [] := by
  intro l
  induction l with
  | nil =>
    intro cur w hw
    simp only [splitWordsGo] at hw
    by_cases hcur : cur = []
    · rw [if_pos hcur] at hw; cases hw
    · rw [if_neg hcur] at hw
      simp only [List.mem_singleton] at hw
      subst hw
      simpa using hcur
  | cons c rest ih =>
    intro cur w hw
    simp only [splitWordsGo] at hw
    by_cases hws : c.isWhitespace = true
    · rw [if_pos hws] at hw
      rcases List.mem_append.mp hw with hl | hr
      · by_cases hcur : cur = []
        · rw [if_pos hcur] at hl; cases hl
        · rw [if_neg hcur] at hl
          simp only [List.mem_singleton] at hl
          subst hl
          simpa using hcur
      · exact ih [] w hr
    · rw [if_neg hws] at hw
      exact ih (c :: cur) w hw

theorem splitWords_mem_ne_empty (text : String) : ∀ w ∈ splitWords text, w ≠ "" := by
  intro w hw
  simp only [splitWords, List.mem_map] at hw
  obtain ⟨l, hl, hwl⟩ := hw
  subst hwl
  intro hcon
  apply splitWordsGo_mem_ne_nil text.data [] l hl
  simpa using congrArg String.data hcon

theorem breakWordGo_mem_good (measure : String → ℚ) (maxPx : ℚ) :
    ∀ (l : List Char) (chunk : String),
      (chunk = "" ∨ goodLine measure maxPx chunk) →
      ∀ w ∈ breakWordGo measure maxPx chunk l, goodLine measure maxPx w := by
  intro l
  induction l with
  | nil =>
    intro chunk hchunk w hw
    simp only [breakWordGo] at hw
    by_cases hc : chunk = ""
    · rw [if_pos hc] at hw; cases hw
    · rw [if_neg hc] at hw
      simp only [List.mem_singleton] at hw
      subst hw
      rcases hchunk with h | h
      · exact absurd h hc
      · exact h
  | cons ch rest ih =>
    intro chunk hchunk w hw
    simp only [breakWordGo] at hw
    by_cases hfit : measure (chunk.push ch) ≤ maxPx
    · rw [if_pos hfit] at hw
      exact ih (chunk.push ch) (Or.inr (Or.inl hfit)) w hw
    · rw [if_neg hfit] at hw
      rcases List.mem_append.mp hw with hl | hr
      · by_cases hc : chunk = ""
        · rw [if_pos hc] at hl; cases hl
        · rw [if_neg hc] at hl
          simp only [List.mem_singleton] at hl
          subst hl
          rcases hchunk with h | h
          · exact absurd h hc
          · exact h
      · exact ih (String.singleton ch) (Or.inr (Or.inr (by rfl))) w hr

theorem breakWordGo_mem_ne_empty (measure : String → ℚ) (maxPx : ℚ) :
    ∀ (l : List Char) (chunk : String),
      ∀ w ∈ breakWordGo measure maxPx chunk l, w ≠ "" := by
  intro l
  induction l with
  | nil =>
    intro chunk w hw
    simp only [breakWordGo] at hw
    by_cases hc : chunk = ""
    · rw [if_pos hc] at hw; cases hw
    · rw [if_neg hc] at hw
      simp only [List.mem_singleton] at hw
      subst hw
      exact hc
  | cons ch rest ih =>
    intro chunk w hw
    simp only [breakWordGo] at hw
    by_cases hfit : measure (chunk.push ch) ≤ maxPx
    · rw [if_pos hfit] at hw
      exact ih (chunk.push ch) w hw
    · rw [if_neg hfit] at hw
      rcases List.mem_append.mp hw with hl | hr
      · by_cases hc : chunk = ""
        · rw [if_pos hc] at hl; cases hl
        · rw [if_neg hc] at hl
          simp only [List.mem_singleton] at hl
          subst hl
          exact hc
      · exact ih (String.singleton ch) w hr

theorem breakWordGo_ne_nil_of_chunk (measure : String → ℚ) (maxPx : ℚ) :
    ∀ (l : List Char) (chunk : String), chunk ≠ "" →
      breakWordGo measure maxPx chunk l ≠ [] := by
  intro l
  induction l with
  | nil =>
    intro chunk hc
    simp only [breakWordGo]
    rw [if_neg hc]
    simp
  | cons ch rest ih =>
    intro chunk hc
    simp only [breakWordGo]
    by_cases hfit : measure (chunk.push ch) ≤ maxPx
    · rw [if_pos hfit]
      exact ih (chunk.push ch) (by simp [String.push, String.ext_iff])
    · rw [if_neg hfit]
      rw [if_neg hc]
      simp

theorem breakWordGo_ne_nil (measure : String → ℚ) (maxPx : ℚ) :
    ∀ l : List Char, l ≠ [] → breakWordGo measure maxPx "" l ≠ [] := by
  intro l hl
  cases l with
  | nil => exact absurd rfl hl
  | cons ch rest =>
    simp only [breakWordGo]
    by_cases hfit : measure (String.push "" ch) ≤ maxPx
    · rw [if_pos hfit]
      exact breakWordGo_ne_nil_of_chunk measure maxPx rest (String.push "" ch)
        (by simp [String.push, String.ext_iff])
    · rw [if_neg hfit]
      simp only [if_true, List.nil_append]
      exact breakWordGo_ne_nil_of_chunk measure maxPx rest (String.singleton ch)
        (by simp [String.singleton, String.push, String.ext_iff])

theorem breakWord_mem_good (measure : String → ℚ) (maxPx : ℚ) (word : String)
    (hword : word ≠ "") :
    ∀ w ∈ breakWord measure maxPx word, goodLine measure maxPx w := by
  intro w hw
  simp only [breakWord] at hw
  have hne : breakWordGo measure maxPx "" word.data ≠ [] := by
    apply breakWordGo_ne_nil
    intro hcon
    exact hword (String.ext_iff.mpr hcon)
  rw [if_neg hne] at hw
  exact breakWordGo_mem_good measure maxPx word.data "" (Or.inl rfl) w hw

theorem breakWord_mem_ne_empty (measure : String → ℚ) (maxPx : ℚ) (word : String)
    (hword : word ≠ "") :
    ∀ w ∈ breakWord measure maxPx word, w ≠ "" := by
  intro w hw
  simp only [breakWord] at hw
  by_cases hne : breakWordGo measure maxPx "" word.data = []
  · rw [if_pos hne] at hw
    simp only [List.mem_singleton] at hw
    subst hw
    exact hword
  · rw [if_neg hne] at hw
    exact breakWordGo_mem_ne_empty measure maxPx word.data "" w hw

theorem breakWord_ne_nil (measure : String → ℚ) (maxPx : ℚ) (word : String) :
    breakWord measure maxPx word ≠ [] := by
  simp only [breakWord]
  by_cases hne : breakWordGo measure maxPx "" word.data = []
  · rw [if_pos hne]; simp
  · rw [if_neg hne]; exact hne

theorem wordParts_mem_good (measure : String → ℚ) (maxPx : ℚ) (word : String)
    (hword : word ≠ "") :
    ∀ w ∈ wordParts measure maxPx word, goodLine measure maxPx w := by
  intro w hw
  simp only [wordParts] at hw
  by_cases hbig : maxPx < measure word
  · rw [if_pos hbig] at hw
    exact breakWord_mem_good measure maxPx word hword w hw
  · rw [if_neg hbig] at hw
    simp only [List.mem_singleton] at hw
    subst hw
    exact Or.inl (le_of_not_lt hbig)

theorem wordParts_mem_ne_empty (measure : String → ℚ) (maxPx : ℚ) (word : String)
    (hword : word ≠ "") :
    ∀ w ∈ wordParts measure maxPx word, w ≠ "" := by
  intro w hw
  simp only [wordParts] at hw
  by_cases hbig : maxPx < measure word
  · rw [if_pos hbig] at hw
    exact breakWord_mem_ne_empty measure maxPx word hword w hw
  · rw [if_neg hbig] at hw
    simp only [List.mem_singleton] at hw
    subst hw
    exact hword

theorem wordParts_ne_nil (measure : String → ℚ) (maxPx : ℚ) (word : String) :
    wordParts measure maxPx word ≠ [] := by
  simp only [wordParts]
  by_cases hbig : maxPx < measure word
  · rw [if_pos hbig]
    exact breakWord_ne_nil measure maxPx word
  · rw [if_neg hbig]
    simp

theorem packLine_eq (measure : String → ℚ) (maxPx : ℚ) (lines : List String)
    (current part : String) :
    packLine measure maxPx (lines, current) part =
      if measure (if current = "" then part else current ++ " " ++ part) ≤ maxPx
      then (lines, if current = "" then part else current ++ " " ++ part)
      else ((if current = "" then lines else lines ++ [current]), part) := by
  simp only [packLine]

/-- Invariant of the packing fold: finished lines are good and nonempty,
the current line is good or still empty, and once a nonempty part has been
consumed the current line is nonempty. -/
theorem packLine_fold (measure : String → ℚ) (maxPx : ℚ) :
    ∀ (parts : List String) (lines : List String) (current : String),
      (∀ p ∈ parts, goodLine measure maxPx p ∧ p ≠ "") →
      (∀ l ∈ lines, goodLine measure maxPx l ∧ l ≠ "") →
      (current = "" ∨ goodLine measure maxPx current) →
      (∀ l ∈ (parts.foldl (packLine measure maxPx) (lines, current)).1,
        goodLine measure maxPx l ∧ l ≠ "") ∧
      ((parts.foldl (packLine measure maxPx) (lines, current)).2 = "" ∨
        goodLine measure maxPx (parts.foldl (packLine measure maxPx) (lines, current)).2) ∧
      ((parts ≠ [] ∨ current ≠ "") →
        (parts.foldl (packLine measure maxPx) (lines, current)).2 ≠ "") := by
  intro parts
  induction parts with
  | nil =>
    intro lines current hp hlines hcur
    refine ⟨hlines, hcur, ?_⟩
    intro h
    rcases h with h | h
    · exact absurd rfl h
    · exact h
  | cons p rest ih =>
    intro lines current hp hlines hcur
    have hpgood := (hp p (by simp)).1
    have hpne := (hp p (by simp)).2
    have hprest : ∀ x ∈ rest, goodLine measure maxPx x ∧ x ≠ "" :=
      fun x hx => hp x (by simp [hx])
    rw [List.foldl_cons, packLine_eq]
    by_cases hfit : measure (if current = "" then p else current ++ " " ++ p) ≤ maxPx
    · rw [if_pos hfit]
      have hcand_ne : (if current = "" then p else current ++ " " ++ p) ≠ "" := by
        by_cases hc : current = ""
        · rw [if_pos hc]; exact hpne
        · rw [if_neg hc]
          intro hcon
          apply hc
          have := congrArg String.data hcon
          simp only [String.data_append] at this
          rcases List.append_eq_nil.mp this with ⟨h1, _⟩
          rcases List.append_eq_nil.mp h1 with ⟨h2, _⟩
          exact String.ext_iff.mpr h2
      obtain ⟨ih1, ih2, ih3⟩ := ih lines _ hprest hlines (Or.inr (Or.inl hfit))
      exact ⟨ih1, ih2, fun _ => ih3 (Or.inr hcand_ne)⟩
    · rw [if_neg hfit]
      have hlines2 : ∀ l ∈ (if current = "" then lines else lines ++ [current]),
          goodLine measure maxPx l ∧ l ≠ "" := by
        by_cases hc : current = ""
        · rw [if_pos hc]; exact hlines
        · rw [if_neg hc]
          intro l hl
          rcases List.mem_append.mp hl with h | h
          · exact hlines l h
          · simp only [List.mem_singleton] at h
            subst h
            rcases hcur with hcur | hcur
            · exact absurd hcur hc
            · exact ⟨hcur, hc⟩
      obtain ⟨ih1, ih2, ih3⟩ := ih _ p hprest hlines2 (Or.inr hpgood)
      exact ⟨ih1, ih2, fun _ => ih3 (Or.inr hpne)⟩

theorem splitWords_of_all_ws (text : String) (h : ∀ c ∈ text.data, c.isWhitespace = true) :
    splitWords text = [] := by
  simp [splitWords, splitWordsGo_all_ws text.data h]

/-- C4 counterexample: with the empty text, budget -1 (a content budget
that `_computeSizes` can produce when `maxWidth < 2·paddingX`) and the
measurer that reports width 0 for everything, the returned line is the
single empty line, whose measured width 0 exceeds the budget and which is
not a single character. -/
theorem C4_counterexample :
    wrapText "" (-1) (fun _ => 0) = [""] ∧
    ¬((fun (_ : String) => (0 : ℚ)) "" ≤ -1 ∨ ("" : String).length = 1) := by
  constructor
  · rfl
  · intro h
    rcases h with h | h
    · norm_num at h
    · simp at h

/-- C4 (amended): wrapText always returns at least one line — exactly the
single empty line for an empty or whitespace-only string — and every
returned line fits the budget or is a single character, except that single
unmeasured empty line. -/
theorem C4_wrapText (text : String) (maxPx : ℚ) (measure : String → ℚ) :
    wrapText text maxPx measure ≠ [] ∧
    ((∀ c ∈ text.data, c.isWhitespace = true) → wrapText text maxPx measure = [""]) ∧
    (∀ l ∈ wrapText text maxPx measure,
      measure l ≤ maxPx ∨ l.length = 1 ∨ (l = "" ∧ wrapText text maxPx measure = [""])) := by
  by_cases hw : splitWords text = []
  · have hwt : wrapText text maxPx measure = [""] := by
      simp only [wrapText]
      rw [if_pos hw]
    refine ⟨by rw [hwt]; simp, fun _ => hwt, ?_⟩
    intro l hl
    rw [hwt] at hl
    simp only [List.mem_singleton] at hl
    subst hl
    exact Or.inr (Or.inr ⟨rfl, hwt⟩)
  · have hparts : ∀ p ∈ ((splitWords text).map (wordParts measure maxPx)).flatten,
        goodLine measure maxPx p ∧ p ≠ "" := by
      intro p hp
      rw [List.mem_flatten] at hp
      obtain ⟨l, hl, hpl⟩ := hp
      rw [List.mem_map] at hl
      obtain ⟨w, hwmem, hwl⟩ := hl
      subst hwl
      have hwne := splitWords_mem_ne_empty text w hwmem
      exact ⟨wordParts_mem_good measure maxPx w hwne p hpl,
        wordParts_mem_ne_empty measure maxPx w hwne p hpl⟩
    have hpne : ((splitWords text).map (wordParts measure maxPx)).flatten ≠ [] := by
      cases hsw : splitWords text with
      | nil => exact absurd hsw hw
      | cons w ws =>
        simp only [List.map_cons, List.flatten_cons]
        intro hcon
        rcases List.append_eq_nil.mp hcon with ⟨h1, _⟩
        exact wordParts_ne_nil measure maxPx w h1
    obtain ⟨hf1, hf2, hf3⟩ := packLine_fold measure maxPx
      ((splitWords text).map (wordParts measure maxPx)).flatten [] "" hparts
      (by simp) (Or.inl rfl)
    have hcur_ne := hf3 (Or.inl hpne)
    have hwt : wrapText text maxPx measure =
        (((splitWords text).map (wordParts measure maxPx)).flatten.foldl
          (packLine measure maxPx) ([], "")).1 ++
        [(((splitWords text).map (wordParts measure maxPx)).flatten.foldl
          (packLine measure maxPx) ([], "")).2] := by
      simp only [wrapText]
      rw [if_neg hw, if_neg hcur_ne]
    refine ⟨by rw [hwt]; simp, ?_, ?_⟩
    · intro hws
      exact absurd (splitWords_of_all_ws text hws) hw
    · intro l hl
      rw [hwt] at hl
      rcases List.mem_append.mp hl with h | h
      · rcases (hf1 l h).1 with hg | hg
        · exact Or.inl hg
        · exact Or.inr (Or.inl hg)
      · simp only [List.mem_singleton] at h
        subst h
        rcases hf2 with h2 | h2
        · exact absurd h2 hcur_ne
        · rcases h2 with hg | hg
          · exact Or.inl hg
          · exact Or.inr (Or.inl hg)

/-- C4 witness: a whitespace-only text yields the single empty line, and on
the text "ab" with an ample budget the returned lines obey the contract. -/
theorem C4_wrapText_witness :
    wrapText "  " 5 (fun s => (s.length : ℚ)) = [""] ∧
    ∀ l ∈ wrapText "ab" 5 (fun s => (s.length : ℚ)),
      (fun s : String => (s.length : ℚ)) l ≤ 5 ∨ l.length = 1 ∨
        (l = "" ∧ wrapText "ab" 5 (fun s => (s.length : ℚ)) = [""]) := by
  constructor
  · exact (C4_wrapText "  " 5 (fun s => (s.length : ℚ))).2.1 (by decide)
  · exact (C4_wrapText "ab" 5 (fun s => (s.length : ℚ))).2.2

/-- C5: in horizontal modes the depth factor is 1 up to depth 2 and
max(0.45, 2.5/maxDepth) beyond, multiplier · depthFactor scales (with
rounding) exactly the branch and sub-level gaps while the sibling gap gets
the multiplier alone; at maxDepth 6 the branch gap is
round(base · multiplier · 0.45); in vertical modes every constant is
round(base · multiplier). -/
theorem C5_adaptive_spacing (o : Options) (root : SNode) :
    ((o.layout = "auto" ∨ o.layout = "left" ∨ o.layout = "right") →
      (computeAdaptiveSpacing o root =
        { branchSpacingX := jsRound (o.branchSpacingX * (o.spacing *
            (if maxDepth root ≤ 2 then 1 else max (9/20) ((5/2) / (maxDepth root : ℚ)))))
          subSpacingX := jsRound (o.subSpacingX * (o.spacing *
            (if maxDepth root ≤ 2 then 1 else max (9/20) ((5/2) / (maxDepth root : ℚ)))))
          verticalSpacingY := jsRound (o.verticalSpacingY * o.spacing)
          horizontalSpacing := jsRound (o.horizontalSpacing * o.spacing)
          verticalSpacing := jsRound (o.verticalSpacing * o.spacing) } ∧
      (maxDepth root = 6 →
        (computeAdaptiveSpacing o root).branchSpacingX =
          jsRound (o.branchSpacingX * o.spacing * (9/20))))) ∧
    ((o.layout = "down" ∨ o.layout = "up") →
      computeAdaptiveSpacing o root =
        { branchSpacingX := jsRound (o.branchSpacingX * o.spacing)
          subSpacingX := jsRound (o.subSpacingX * o.spacing)
          verticalSpacingY := jsRound (o.verticalSpacingY * o.spacing)
          horizontalSpacing := jsRound (o.horizontalSpacing * o.spacing)
          verticalSpacing := jsRound (o.verticalSpacing * o.spacing) }) := by
  constructor
  · intro hl
    have hne : ¬(o.layout = "up" ∨ o.layout = "down") := by
      rcases hl with h | h | h <;> simp [h]
    have hmain : computeAdaptiveSpacing o root =
        { branchSpacingX := jsRound (o.branchSpacingX * (o.spacing *
            (if maxDepth root ≤ 2 then 1 else max (9/20) ((5/2) / (maxDepth root : ℚ)))))
          subSpacingX := jsRound (o.subSpacingX * (o.spacing *
            (if maxDepth root ≤ 2 then 1 else max (9/20) ((5/2) / (maxDepth root : ℚ)))))
          verticalSpacingY := jsRound (o.verticalSpacingY * o.spacing)
          horizontalSpacing := jsRound (o.horizontalSpacing * o.spacing)
          verticalSpacing := jsRound (o.verticalSpacing * o.spacing) } := by
      simp only [computeAdaptiveSpacing]
      rw [if_neg hne]
    refine ⟨hmain, ?_⟩
    intro h6
    rw [hmain]
    simp only [h6]
    rw [if_neg (by norm_num)]
    have hmax : max ((9 : ℚ)/20) ((5/2) / ((6 : ℕ) : ℚ)) = 9/20 := by
      rw [max_eq_left]
      norm_num
    rw [hmax]
    ring_nf
  · intro hl
    simp only [computeAdaptiveSpacing]
    rw [if_pos (Or.symm hl)]

/-- C5 witness: the default (auto) configuration on a depth-6 chain yields a
branch gap of round(220 · 1 · 0.45) = 99, and the down layout keeps every
base gap. -/
theorem C5_adaptive_spacing_witness :
    (computeAdaptiveSpacing defaultOptions chain6).branchSpacingX =
      jsRound (defaultOptions.branchSpacingX * defaultOptions.spacing * (9/20)) ∧
    computeAdaptiveSpacing { defaultOptions with layout := "down" } chain6 =
      { branchSpacingX := jsRound (220 * 1), subSpacingX := jsRound (170 * 1)
        verticalSpacingY := jsRound (60 * 1), horizontalSpacing := jsRound (30 * 1)
        verticalSpacing := jsRound (50 * 1) } := by
  constructor
  · exact ((C5_adaptive_spacing defaultOptions chain6).1 (Or.inl rfl)).2 (by decide)
  · exact (C5_adaptive_spacing { defaultOptions with layout := "down" } chain6).2
      (Or.inl rfl)

theorem snodeStrongInd (P : SNode → Prop)
    (h : ∀ i cs, (∀ c ∈ cs, P c) → P (.mk i cs)) : ∀ t, P t
  | .mk i cs => h i cs (fun c hc => snodeStrongInd P h c)
termination_by t => sizeOf t
decreasing_by
  simp only [SNode.mk.sizeOf_spec]
  have := List.sizeOf_lt_of_mem hc
  omega

theorem footprintSpecList_congr (g : ℚ) (collapsed : List ℕ) (sp : Sp)
    (cs : List SNode)
    (h : ∀ c ∈ cs, footprintSpec g collapsed c = subtreeHeight sp collapsed c) :
    footprintSpecList g collapsed cs = subtreeHeightList sp collapsed cs := by
  induction cs with
  | nil => rfl
  | cons c rest ih =>
    simp only [footprintSpecList, subtreeHeightList]
    rw [h c (by simp), ih (fun x hx => h x (by simp [hx]))]

/-- The spec's footprint recursion computes exactly `_subtreeHeight`. -/
theorem footprintSpec_eq_subtreeHeight (sp : Sp) (collapsed : List ℕ) :
    ∀ t : SNode, footprintSpec sp.verticalSpacing collapsed t =
      subtreeHeight sp collapsed t := by
  intro t
  induction t using snodeStrongInd with
  | h i cs ih =>
    simp only [footprintSpec, subtreeHeight, Bool.or_comm]
    rw [footprintSpecList_congr sp.verticalSpacing collapsed sp cs ih]

theorem pruneCollapsedList_isEmpty (collapsed : List ℕ) (cs : List SNode) :
    (pruneCollapsedList collapsed cs).isEmpty = cs.isEmpty := by
  cases cs with
  | nil => rfl
  | cons c rest => rfl

theorem subtreeHeightList_prune_congr (sp : Sp) (collapsed : List ℕ) (cs : List SNode)
    (h : ∀ c ∈ cs, subtreeHeight sp collapsed (pruneCollapsed collapsed c) =
      subtreeHeight sp collapsed c) :
    subtreeHeightList sp collapsed (pruneCollapsedList collapsed cs) =
      subtreeHeightList sp collapsed cs := by
  induction cs with
  | nil => rfl
  | cons c rest ih =>
    simp only [pruneCollapsedList, subtreeHeightList]
    rw [h c (by simp), ih (fun x hx => h x (by simp [hx]))]

/-- Deleting the hidden descendants of every collapsed node changes no
footprint: a collapsed node contributes `height + siblingGap` either way. -/
theorem subtreeHeight_prune (sp : Sp) (collapsed : List ℕ) :
    ∀ t : SNode, subtreeHeight sp collapsed (pruneCollapsed collapsed t) =
      subtreeHeight sp collapsed t := by
  intro t
  induction t using snodeStrongInd with
  | h i cs ih =>
    simp only [pruneCollapsed]
    by_cases hcol : collapsed.contains i.id = true
    · rw [if_pos hcol]
      simp only [subtreeHeight, hcol, Bool.or_true, if_true]
    · rw [if_neg hcol]
      have hcol2 : collapsed.contains i.id = false := by
        cases hb : collapsed.contains i.id
        · rfl
        · exact absurd hb hcol
      simp only [subtreeHeight, hcol2, Bool.or_false,
        pruneCollapsedList_isEmpty collapsed cs]
      by_cases hcs : cs.isEmpty = true
      · rw [if_pos hcs, if_pos hcs]
      · rw [if_neg hcs, if_neg hcs,
          subtreeHeightList_prune_congr sp collapsed cs ih]

/-- C2: in the horizontal layout family the spec's recursive footprint
formula is exactly `_subtreeHeight` — `height + siblingGap` for a collapsed
or childless node, else the max of the children's footprint sum and
`height + siblingGap` — and every footprint is unchanged when the hidden
descendants of collapsed nodes are removed, so the placement input for each
sibling subtree depends only on a collapsed node's own height. -/
theorem C2_footprint (sp : Sp) (collapsed : List ℕ) :
    (∀ t : SNode, footprintSpec sp.verticalSpacing collapsed t =
      subtreeHeight sp collapsed t) ∧
    (∀ t : SNode, subtreeHeight sp collapsed (pruneCollapsed collapsed t) =
      subtreeHeight sp collapsed t) := by
  exact ⟨footprintSpec_eq_subtreeHeight sp collapsed, subtreeHeight_prune sp collapsed⟩

/-- Evaluation form of `jsCeil` through the integer floor. -/
theorem jsCeil_floor (q : ℚ) : jsCeil q = ((-(⌊-q⌋) : ℤ) : ℚ) := by
  unfold jsCeil
  rw [Int.floor_neg]
  norm_num

theorem rootA_directed : assignDirections defaultOptions.layout rootABuilt = rootADirected := by
  simp only [assignDirections, propagateDir, propagateDirList, assignFloats, countDir,
    jsFalsyDir, setDirection, Node.info, rootABuilt, rootADirected, defaultOptions]
  rfl

theorem rootA_neg_sized :
    computeSizes defaultOptions negMeasure rootADirected = rootANegSized := by
  have hR : (wrapText "Root" 184 fun t => (-5:ℚ)) = ["Root"] := by decide
  have hA : (wrapText "A" 164 fun t => (-5:ℚ)) = ["A"] := by decide
  simp only [computeSizes, computeSizesList, rootADirected, rootANegSized]
  norm_num [sizeInfo, profileFor, defaultOptions, LINK_ICON_SPACE, negMeasure,
    SInfo.mk.injEq, jsCeil_floor, hR, hA]

theorem rootA_neg_sp :
    computeAdaptiveSpacing defaultOptions rootANegSized = Sp.mk 220 170 60 30 50 := by
  have hmd : maxDepth rootANegSized = 1 := by
    simp [maxDepth, maxDepthList, rootANegSized]
  simp only [computeAdaptiveSpacing, hmd]
  norm_num [defaultOptions, jsRound, Sp.mk.injEq]

theorem rootA_neg_boxes :
    visBoxes [] (layoutTree defaultOptions (Sp.mk 220 170 60 30 50) [] rootANegSized) =
      [Box.mk 0 0 56 57, Box.mk 266 0 36 41] := by
  simp only [layoutTree]
  rw [if_neg (by decide)]
  simp only [layoutTreeH, rootANegSized]
  norm_num [layoutSide, layoutChildren, layoutNode, subtreeHeight, subtreeHeightList,
    unplaced, unplacedList, visBoxes, visBoxesList, defaultOptions, SNode.info,
    Box.mk.injEq]

/-- C9 counterexample: with the everywhere-negative measurer the whole
render pass completes and hands concrete boxes to drawing — no
MeasurementError exists and nothing aborts; the negative widths are simply
absorbed (each box width collapses to the padding term). -/
theorem C9_counterexample :
    renderBoxes defaultOptions negMeasure [] rootA =
      .ok [Box.mk 0 0 56 57, Box.mk 266 0 36 41] := by
  have h0 : buildTree rootA (-1) 0 0 = .ok (rootABuilt, 2) := by rfl
  simp only [renderBoxes, h0, rootA_directed, rootA_neg_sized, rootA_neg_sp,
    rootA_neg_boxes]

theorem foldl_max_le_acc (f : String → ℚ) :
    ∀ (ls : List String) (acc : ℚ), (∀ l ∈ ls, f l ≤ acc) →
      ls.foldl (fun m l => max m (f l)) acc = acc := by
  intro ls
  induction ls with
  | nil => intro acc _; rfl
  | cons l rest ih =>
    intro acc h
    simp only [List.foldl_cons]
    rw [max_eq_left (h l (by simp))]
    exact ih acc (fun x hx => h x (by simp [hx]))

theorem sizeInfo_width_nonpos (o : Options) (measure : String → ℚ → ℚ)
    (hm : ∀ s fs, measure s fs ≤ 0) (i : NodeInfo) :
    (sizeInfo o measure i).width =
      jsCeil (min ((profileFor o i.depth).paddingX * 2 +
        (if i.url.isSome then LINK_ICON_SPACE else 0)) (profileFor o i.depth).maxWidth) := by
  simp only [sizeInfo]
  rw [foldl_max_le_acc _ _ 0 (fun l _ => hm l (profileFor o i.depth).fontSize)]
  rw [zero_add]

theorem computeSizesList_eq_map (o : Options) (measure : String → ℚ → ℚ)
    (cs : List Node) :
    computeSizesList o measure cs = cs.map (computeSizes o measure) := by
  induction cs with
  | nil => rfl
  | cons c rest ih => simp [computeSizesList, ih]

theorem mem_sInfosList (cs : List SNode) (inf : SInfo)
    (h : inf ∈ sInfosList cs) : ∃ c ∈ cs, inf ∈ sInfos c := by
  induction cs with
  | nil => cases h
  | cons c rest ih =>
    simp only [sInfosList, List.mem_append] at h
    rcases h with hl | hr
    · exact ⟨c, by simp, hl⟩
    · obtain ⟨c2, hc2, hinf⟩ := ih hr
      exact ⟨c2, by simp [hc2], hinf⟩

/-- C9 (amended): the source checks nothing about measurement results — the
sizing pass is a total function of the measurer, so a negative (or
otherwise nonsensical) width never raises an error or stops the pass; an
everywhere-nonpositive measurer is silently absorbed, every node's width
collapsing to ceil(min(2·paddingX + iconSpace, maxWidth)) because the
widest-line fold starts at 0. -/
theorem C9_no_measurement_error (o : Options) (measure : String → ℚ → ℚ)
    (hm : ∀ s fs, measure s fs ≤ 0) :
    ∀ t : Node, ∀ inf ∈ sInfos (computeSizes o measure t),
      inf.width = jsCeil (min ((profileFor o inf.depth).paddingX * 2 +
        (if inf.url.isSome then LINK_ICON_SPACE else 0))
        (profileFor o inf.depth).maxWidth) := by
  intro t
  induction t using nodeStrongInd with
  | h i cs ih =>
    intro inf hinf
    simp only [computeSizes, sInfos, List.mem_cons] at hinf
    rcases hinf with hself | hrest
    · subst hself
      have hw := sizeInfo_width_nonpos o measure hm i
      have hdep : (sizeInfo o measure i).depth = i.depth := by simp [sizeInfo]
      have hurl : (sizeInfo o measure i).url = i.url := by simp [sizeInfo]
      rw [hdep, hurl]
      exact hw
    · obtain ⟨c2, hc2, hinf2⟩ := mem_sInfosList _ inf hrest
      rw [computeSizesList_eq_map] at hc2
      obtain ⟨c, hc, hceq⟩ := List.mem_map.mp hc2
      subst hceq
      exact ih c hc inf hinf2

/-- C9 witness: on a single "Root" node with the -5 measurer, the sized
record obeys the collapsed-width formula ceil(min(2·28 + 0, 240)) = 56. -/
theorem C9_no_measurement_error_witness :
    (sizeInfo defaultOptions negMeasure (NodeInfo.mk "Root" none none 0 (-1) 0)).width =
      jsCeil (min ((profileFor defaultOptions
          (sizeInfo defaultOptions negMeasure
            (NodeInfo.mk "Root" none none 0 (-1) 0)).depth).paddingX * 2 +
        (if (sizeInfo defaultOptions negMeasure
            (NodeInfo.mk "Root" none none 0 (-1) 0)).url.isSome
          then LINK_ICON_SPACE else 0))
        (profileFor defaultOptions
          (sizeInfo defaultOptions negMeasure
            (NodeInfo.mk "Root" none none 0 (-1) 0)).depth).maxWidth) := by
  exact C9_no_measurement_error defaultOptions negMeasure
    (fun _ _ => by norm_num [negMeasure])
    (Node.mk (NodeInfo.mk "Root" none none 0 (-1) 0) [])
    (sizeInfo defaultOptions negMeasure (NodeInfo.mk "Root" none none 0 (-1) 0))
    (by simp [computeSizes, computeSizesList, sInfos, sInfosList])

theorem boxDisjoint_of_x_le (a b : Box) (h : a.x + a.w / 2 ≤ b.x - b.w / 2) :
    boxDisjoint a b := by
  intro hcon
  obtain ⟨hx, _⟩ := hcon
  unfold openOverlap at hx
  have h1 : min (a.x + a.w / 2) (b.x + b.w / 2) ≤ a.x + a.w / 2 := min_le_left _ _
  have h2 : b.x - b.w / 2 ≤ max (a.x - a.w / 2) (b.x - b.w / 2) := le_max_right _ _
  linarith

theorem boxDisjoint_of_y_le (a b : Box) (h : a.y + a.h / 2 ≤ b.y - b.h / 2) :
    boxDisjoint a b := by
  intro hcon
  obtain ⟨_, hy⟩ := hcon
  unfold openOverlap at hy
  have h1 : min (a.y + a.h / 2) (b.y + b.h / 2) ≤ a.y + a.h / 2 := min_le_left _ _
  have h2 : b.y - b.h / 2 ≤ max (a.y - a.h / 2) (b.y - b.h / 2) := le_max_right _ _
  linarith

theorem boxDisjoint_symm (a b : Box) (h : boxDisjoint a b) : boxDisjoint b a := by
  intro hcon
  apply h
  obtain ⟨hx, hy⟩ := hcon
  unfold openOverlap at hx hy
  constructor
  · unfold openOverlap
    rw [max_comm, min_comm]
    exact hx
  · unfold openOverlap
    rw [max_comm, min_comm]
    exact hy

theorem boxDisjoint_of_sx_le (σ : ℚ) (hσ : σ = 1 ∨ σ = -1) (a b : Box)
    (h : σ * a.x + a.w / 2 ≤ σ * b.x - b.w / 2) : boxDisjoint a b := by
  rcases hσ with h1 | h1 <;> subst h1
  · apply boxDisjoint_of_x_le
    linarith
  · apply boxDisjoint_symm
    apply boxDisjoint_of_x_le
    linarith

theorem boxDisjoint_of_sy_le (σ : ℚ) (hσ : σ = 1 ∨ σ = -1) (a b : Box)
    (h : σ * a.y + a.h / 2 ≤ σ * b.y - b.h / 2) : boxDisjoint a b := by
  rcases hσ with h1 | h1 <;> subst h1
  · apply boxDisjoint_of_y_le
    linarith
  · apply boxDisjoint_symm
    apply boxDisjoint_of_y_le
    linarith

theorem visBoxesList_append (col : List ℕ) (l1 l2 : List PNode) :
    visBoxesList col (l1 ++ l2) = visBoxesList col l1 ++ visBoxesList col l2 := by
  induction l1 with
  | nil => rfl
  | cons c rest ih => simp [visBoxesList, ih]

theorem mem_sInfosList_of_mem (cs : List SNode) (c : SNode) (hc : c ∈ cs)
    (inf : SInfo) (hinf : inf ∈ sInfos c) : inf ∈ sInfosList cs := by
  induction cs with
  | nil => cases hc
  | cons c2 rest ih =>
    simp only [sInfosList, List.mem_append]
    rcases List.mem_cons.mp hc with hceq | hcr
    · subst hceq; exact Or.inl hinf
    · exact Or.inr (ih hcr)

theorem nonnegSizes_children (i : SInfo) (cs : List SNode)
    (h : nonnegSizes (.mk i cs)) : ∀ c ∈ cs, nonnegSizes c := by
  intro c hc inf hinf
  apply h
  simp only [sInfos, List.mem_cons]
  exact Or.inr (mem_sInfosList_of_mem cs c hc inf hinf)

theorem nonnegSizes_self (i : SInfo) (cs : List SNode)
    (h : nonnegSizes (.mk i cs)) : 0 ≤ i.width ∧ 0 ≤ i.height :=
  h i (by simp [sInfos])

theorem subtreeHeight_nonneg (sp : Sp) (col : List ℕ) (hvs : 0 ≤ sp.verticalSpacing) :
    ∀ t : SNode, nonnegSizes t → 0 ≤ subtreeHeight sp col t := by
  intro t
  induction t using snodeStrongInd with
  | h i cs _ =>
    intro hnn
    have hh := (nonnegSizes_self i cs hnn).2
    simp only [subtreeHeight]
    by_cases hc : (cs.isEmpty || col.contains i.id) = true
    · rw [if_pos hc]; linarith
    · rw [if_neg hc]
      have : (0 : ℚ) ≤ i.height + sp.verticalSpacing := by linarith
      exact le_trans this (le_max_right _ _)

theorem subtreeHeightList_nonneg (sp : Sp) (col : List ℕ)
    (hvs : 0 ≤ sp.verticalSpacing) :
    ∀ cs : List SNode, (∀ c ∈ cs, nonnegSizes c) → 0 ≤ subtreeHeightList sp col cs := by
  intro cs
  induction cs with
  | nil => intro _; simp [subtreeHeightList]
  | cons c rest ih =>
    intro h
    simp only [subtreeHeightList]
    have h1 := subtreeHeight_nonneg sp col hvs c (h c (by simp))
    have h2 := ih (fun x hx => h x (by simp [hx]))
    linarith

theorem subtreeHeight_ge (sp : Sp) (col : List ℕ) (i : SInfo) (cs : List SNode) :
    i.height + sp.verticalSpacing ≤ subtreeHeight sp col (.mk i cs) := by
  simp only [subtreeHeight]
  by_cases hc : (cs.isEmpty || col.contains i.id) = true
  · rw [if_pos hc]
  · rw [if_neg hc]
    exact le_max_right _ _

theorem subtreeHeightList_le (sp : Sp) (col : List ℕ) (i : SInfo) (cs : List SNode)
    (hne : (cs.isEmpty || col.contains i.id) = false) :
    subtreeHeightList sp col cs ≤ subtreeHeight sp col (.mk i cs) := by
  simp only [subtreeHeight, hne]
  rw [if_neg (by simp [hne])]
  exact le_max_left _ _

theorem hSign_cases (dir : String) : hSign dir = 1 ∨ hSign dir = -1 := by
  unfold hSign
  by_cases h : dir = "right" <;> simp [h]

theorem layoutChildren_ok_aux (sp : Sp) (col : List ℕ) (dir : String)
    (hvs : 0 ≤ sp.verticalSpacing) (cs : List SNode)
    (IH : ∀ c ∈ cs, hNodeOK sp col dir c) :
    ∀ anchorX cy : ℚ, (∀ c ∈ cs, nonnegSizes c) →
      (∀ b ∈ visBoxesList col (layoutChildren sp col dir anchorX cy cs),
        beyondX (hSign dir) anchorX b ∧
        inBandY cy (cy + subtreeHeightList sp col cs) b) ∧
      (visBoxesList col (layoutChildren sp col dir anchorX cy cs)).Pairwise boxDisjoint := by
  induction cs with
  | nil =>
    intro anchorX cy _
    constructor
    · intro b hb
      simp [layoutChildren, visBoxesList] at hb
    · simp [layoutChildren, visBoxesList]
  | cons c rest ihl =>
    intro anchorX cy hnn
    have hnnc := hnn c (by simp)
    have hnnr : ∀ x ∈ rest, nonnegSizes x := fun x hx => hnn x (by simp [hx])
    have hF : 0 ≤ subtreeHeight sp col c := subtreeHeight_nonneg sp col hvs c hnnc
    have hS : 0 ≤ subtreeHeightList sp col rest := subtreeHeightList_nonneg sp col hvs rest hnnr
    obtain ⟨hcb, hcp⟩ := IH c (by simp) anchorX (cy + subtreeHeight sp col c / 2) hnnc
    obtain ⟨hrb, hrp⟩ := ihl (fun x hx => IH x (by simp [hx])) anchorX
      (cy + subtreeHeight sp col c) hnnr
    simp only [layoutChildren, visBoxesList]
    constructor
    · intro b hb
      rcases List.mem_append.mp hb with hb1 | hb2
      · obtain ⟨hbey, hband⟩ := hcb b hb1
        refine ⟨hbey, ?_, ?_⟩
        · have := hband.1
          linarith
        · have := hband.2
          simp only [subtreeHeightList]
          linarith
      · obtain ⟨hbey, hband⟩ := hrb b hb2
        refine ⟨hbey, ?_, ?_⟩
        · have := hband.1
          linarith
        · have := hband.2
          simp only [subtreeHeightList]
          linarith
    · rw [List.pairwise_append]
      refine ⟨hcp, hrp, ?_⟩
      intro b1 hb1 b2 hb2
      have h1 := (hcb b1 hb1).2.2
      have h2 := (hrb b2 hb2).2.1
      exact boxDisjoint_of_y_le b1 b2 (by linarith)

theorem layoutNode_x (dir : String) (anchorX w : ℚ) :
    hSign dir * (if dir = "right" then anchorX + w / 2 else anchorX - w / 2) =
      hSign dir * anchorX + w / 2 := by
  unfold hSign
  by_cases h : dir = "right" <;> simp [h] <;> ring

theorem layoutNode_ok (sp : Sp) (col : List ℕ) (dir : String)
    (hsub : 0 ≤ sp.subSpacingX) (hvs : 0 ≤ sp.verticalSpacing) :
    ∀ t, hNodeOK sp col dir t := by
  intro t
  induction t using snodeStrongInd with
  | h i cs ih =>
    intro anchorX y hnn
    have hw : 0 ≤ i.width := (nonnegSizes_self i cs hnn).1
    have hh : 0 ≤ i.height := (nonnegSizes_self i cs hnn).2
    have hge := subtreeHeight_ge sp col i cs
    have hσ := hSign_cases dir
    have hx := layoutNode_x dir anchorX i.width
    simp only [layoutNode]
    by_cases hc : (cs.isEmpty || col.contains i.id) = true
    · rw [if_pos hc]
      have hboxes : visBoxes col
          (PNode.mk i (if dir = "right" then anchorX + i.width / 2
            else anchorX - i.width / 2) y (unplacedList cs)) =
          [Box.mk (if dir = "right" then anchorX + i.width / 2
            else anchorX - i.width / 2) y i.width i.height] := by
        simp only [visBoxes]
        by_cases hcol : col.contains i.id = true
        · rw [if_pos hcol]
        · have hcs : cs = [] := by
            rcases Bool.or_eq_true_iff.mp hc with h1 | h1
            · exact List.isEmpty_iff.mp h1
            · exact absurd h1 hcol
          subst hcs
          rw [if_neg hcol]
          rfl
      rw [hboxes]
      constructor
      · intro b hb
        simp only [List.mem_singleton] at hb
        subst hb
        refine ⟨?_, ?_, ?_⟩
        · unfold beyondX
          dsimp only
          rw [hx]
          linarith
        · dsimp only
          have hvsh : i.height ≤ subtreeHeight sp col (SNode.mk i cs) := by linarith
          linarith
        · dsimp only
          have hvsh : i.height ≤ subtreeHeight sp col (SNode.mk i cs) := by linarith
          linarith
      · simp
    · rw [if_neg hc]
      have hcfalse : (cs.isEmpty || col.contains i.id) = false := by
        cases hbb : (cs.isEmpty || col.contains i.id)
        · rfl
        · exact absurd hbb hc
      have hcol : col.contains i.id = false := by
        cases hb : col.contains i.id
        · rfl
        · exfalso
          apply hc
          rw [hb, Bool.or_true]
      have hS : subtreeHeightList sp col cs ≤ subtreeHeight sp col (SNode.mk i cs) :=
        subtreeHeightList_le sp col i cs hcfalse
      have hSnn : 0 ≤ subtreeHeightList sp col cs :=
        subtreeHeightList_nonneg sp col hvs cs (nonnegSizes_children i cs hnn)
      obtain ⟨hcb, hcp⟩ := layoutChildren_ok_aux sp col dir hvs cs ih
        (if dir = "right"
          then (if dir = "right" then anchorX + i.width / 2 else anchorX - i.width / 2) +
            i.width / 2 + sp.subSpacingX
          else (if dir = "right" then anchorX + i.width / 2 else anchorX - i.width / 2) -
            i.width / 2 - sp.subSpacingX)
        (y - subtreeHeightList sp col cs / 2) (nonnegSizes_children i cs hnn)
      have hanchor : hSign dir * (if dir = "right"
          then (if dir = "right" then anchorX + i.width / 2 else anchorX - i.width / 2) +
            i.width / 2 + sp.subSpacingX
          else (if dir = "right" then anchorX + i.width / 2 else anchorX - i.width / 2) -
            i.width / 2 - sp.subSpacingX) =
          hSign dir * anchorX + i.width + sp.subSpacingX := by
        unfold hSign
        by_cases h : dir = "right" <;> simp [h] <;> ring
      simp only [visBoxes, hcol, if_false]
      constructor
      · intro b hb
        rcases List.mem_cons.mp hb with hb1 | hb2
        · subst hb1
          refine ⟨?_, ?_, ?_⟩
          · unfold beyondX
            dsimp only
            rw [hx]
            linarith
          · dsimp only
            have : i.height ≤ subtreeHeight sp col (SNode.mk i cs) := by linarith
            linarith
          · dsimp only
            have : i.height ≤ subtreeHeight sp col (SNode.mk i cs) := by linarith
            linarith
        · obtain ⟨hbey, hband⟩ := hcb b hb2
          unfold beyondX at hbey
          rw [hanchor] at hbey
          refine ⟨?_, ?_, ?_⟩
          · unfold beyondX
            linarith
          · have := hband.1
            linarith
          · have := hband.2
            linarith
      · rw [List.pairwise_cons]
        constructor
        · intro b hb
          obtain ⟨hbey, _⟩ := hcb b hb
          unfold beyondX at hbey
          rw [hanchor] at hbey
          apply boxDisjoint_of_sx_le (hSign dir) hσ
          dsimp only
          rw [hx]
          linarith
        · exact hcp

theorem layoutSide_ok (o : Options) (sp : Sp) (col : List ℕ)
    (hedge : o.centerEdge = "side") (hbs : 0 ≤ sp.branchSpacingX)
    (hsub : 0 ≤ sp.subSpacingX) (hvs : 0 ≤ sp.verticalSpacing)
    (rootW : ℚ) (branches : List SNode) (dir : String)
    (hnn : ∀ c ∈ branches, nonnegSizes c) :
    (∀ b ∈ visBoxesList col (layoutSide o sp col rootW branches dir),
      rootW / 2 + sp.branchSpacingX ≤ hSign dir * b.x - b.w / 2) ∧
    (visBoxesList col (layoutSide o sp col rootW branches dir)).Pairwise boxDisjoint := by
  simp only [layoutSide]
  by_cases hbr : branches.isEmpty = true
  · rw [if_pos hbr]
    constructor
    · intro b hb
      simp [visBoxesList] at hb
    · simp [visBoxesList]
  · rw [if_neg hbr]
    rw [hedge]
    have hIH : ∀ c ∈ branches, hNodeOK sp col dir c :=
      fun c _ => layoutNode_ok sp col dir hsub hvs c
    obtain ⟨hball, hp⟩ := layoutChildren_ok_aux sp col dir hvs branches hIH
      (if dir = "right" then (if "side" = "side" then rootW / 2 + sp.branchSpacingX
        else sp.branchSpacingX)
       else (if "side" = "side" then -(rootW / 2 + sp.branchSpacingX)
        else -sp.branchSpacingX))
      (-(subtreeHeightList sp col branches) / 2) hnn
    have hedgeval : hSign dir * (if dir = "right"
        then (if "side" = "side" then rootW / 2 + sp.branchSpacingX else sp.branchSpacingX)
        else (if "side" = "side" then -(rootW / 2 + sp.branchSpacingX)
          else -sp.branchSpacingX)) = rootW / 2 + sp.branchSpacingX := by
      unfold hSign
      by_cases h : dir = "right" <;> simp [h]
    refine ⟨?_, hp⟩
    intro b hb
    have := (hball b hb).1
    unfold beyondX at this
    rw [hedgeval] at this
    linarith

theorem layoutTreeH_disjoint (o : Options) (sp : Sp) (col : List ℕ)
    (hedge : o.centerEdge = "side") (hbs : 0 ≤ sp.branchSpacingX)
    (hsub : 0 ≤ sp.subSpacingX) (hvs : 0 ≤ sp.verticalSpacing)
    (i : SInfo) (cs : List SNode) (hnn : nonnegSizes (.mk i cs))
    (hdirs : ∀ c ∈ cs, c.info.direction = some "right" ∨ c.info.direction = some "left") :
    (visBoxes col (layoutTreeH o sp col (.mk i cs))).Pairwise boxDisjoint := by
  have hw : 0 ≤ i.width := (nonnegSizes_self i cs hnn).1
  have hothers : cs.filter (fun c =>
      ¬(c.info.direction = some "right" ∨ c.info.direction = some "left")) = [] := by
    rw [List.filter_eq_nil_iff]
    intro c hc
    simp only [decide_eq_true_eq, Decidable.not_not]
    exact hdirs c hc
  have hnnR : ∀ c ∈ cs.filter (fun c => c.info.direction = some "right"), nonnegSizes c :=
    fun c hc => nonnegSizes_children i cs hnn c (List.mem_of_mem_filter hc)
  have hnnL : ∀ c ∈ cs.filter (fun c => c.info.direction = some "left"), nonnegSizes c :=
    fun c hc => nonnegSizes_children i cs hnn c (List.mem_of_mem_filter hc)
  obtain ⟨hRb, hRp⟩ := layoutSide_ok o sp col hedge hbs hsub hvs i.width
    (cs.filter (fun c => c.info.direction = some "right")) "right" hnnR
  obtain ⟨hLb, hLp⟩ := layoutSide_ok o sp col hedge hbs hsub hvs i.width
    (cs.filter (fun c => c.info.direction = some "left")) "left" hnnL
  simp only [layoutTreeH, hothers, visBoxes, unplacedList, List.append_nil]
  by_cases hcol : col.contains i.id = true
  · rw [if_pos hcol]
    simp
  · rw [if_neg hcol]
    rw [visBoxesList_append]
    rw [List.pairwise_cons]
    have hsR : hSign "right" = 1 := by unfold hSign; simp
    have hsL : hSign "left" = -1 := by unfold hSign; simp
    constructor
    · intro b hb
      rcases List.mem_append.mp hb with hbR | hbL
      · have := hRb b hbR
        rw [hsR] at this
        apply boxDisjoint_of_x_le
        dsimp only
        linarith
      · have := hLb b hbL
        rw [hsL] at this
        apply boxDisjoint_symm
        apply boxDisjoint_of_x_le
        dsimp only
        linarith
    · rw [List.pairwise_append]
      refine ⟨hRp, hLp, ?_⟩
      intro b1 hb1 b2 hb2
      have h1 := hRb b1 hb1
      have h2 := hLb b2 hb2
      rw [hsR] at h1
      rw [hsL] at h2
      apply boxDisjoint_symm
      apply boxDisjoint_of_x_le
      linarith

theorem subtreeWidth_nonneg (sp : Sp) (col : List ℕ) (hhs : 0 ≤ sp.horizontalSpacing) :
    ∀ t : SNode, nonnegSizes t → 0 ≤ subtreeWidth sp col t := by
  intro t
  induction t using snodeStrongInd with
  | h i cs _ =>
    intro hnn
    have hw := (nonnegSizes_self i cs hnn).1
    simp only [subtreeWidth]
    by_cases hc : (cs.isEmpty || col.contains i.id) = true
    · rw [if_pos hc]; linarith
    · rw [if_neg hc]
      have : (0 : ℚ) ≤ i.width + sp.horizontalSpacing := by linarith
      exact le_trans this (le_max_right _ _)

theorem subtreeWidthList_nonneg (sp : Sp) (col : List ℕ)
    (hhs : 0 ≤ sp.horizontalSpacing) :
    ∀ cs : List SNode, (∀ c ∈ cs, nonnegSizes c) → 0 ≤ subtreeWidthList sp col cs := by
  intro cs
  induction cs with
  | nil => intro _; simp [subtreeWidthList]
  | cons c rest ih =>
    intro h
    simp only [subtreeWidthList]
    have h1 := subtreeWidth_nonneg sp col hhs c (h c (by simp))
    have h2 := ih (fun x hx => h x (by simp [hx]))
    linarith

theorem subtreeWidth_ge (sp : Sp) (col : List ℕ) (i : SInfo) (cs : List SNode) :
    i.width + sp.horizontalSpacing ≤ subtreeWidth sp col (.mk i cs) := by
  simp only [subtreeWidth]
  by_cases hc : (cs.isEmpty || col.contains i.id) = true
  · rw [if_pos hc]
  · rw [if_neg hc]
    exact le_max_right _ _

theorem subtreeWidthList_le (sp : Sp) (col : List ℕ) (i : SInfo) (cs : List SNode)
    (hne : (cs.isEmpty || col.contains i.id) = false) :
    subtreeWidthList sp col cs ≤ subtreeWidth sp col (.mk i cs) := by
  simp only [subtreeWidth]
  rw [if_neg (by rw [hne]; simp)]
  exact le_max_left _ _

theorem layoutVerticalChildren_ok_aux (sp : Sp) (col : List ℕ) (σ : ℚ)
    (hσ : σ = 1 ∨ σ = -1) (hhs : 0 ≤ sp.horizontalSpacing) (cs : List SNode)
    (IH : ∀ c ∈ cs, vNodeOK sp col σ c) :
    ∀ edgeY cx : ℚ, (∀ c ∈ cs, nonnegSizes c) →
      (∀ b ∈ visBoxesList col (layoutVerticalChildren sp col σ edgeY cx cs),
        inBandX cx (cx + subtreeWidthList sp col cs) b ∧
        σ * edgeY ≤ σ * b.y - b.h / 2) ∧
      (visBoxesList col (layoutVerticalChildren sp col σ edgeY cx cs)).Pairwise
        boxDisjoint := by
  have hσ2 : σ * σ = 1 := by rcases hσ with h | h <;> rw [h] <;> norm_num
  induction cs with
  | nil =>
    intro edgeY cx _
    constructor
    · intro b hb
      simp [layoutVerticalChildren, visBoxesList] at hb
    · simp [layoutVerticalChildren, visBoxesList]
  | cons c rest ihl =>
    intro edgeY cx hnn
    have hnnc := hnn c (by simp)
    have hnnr : ∀ x ∈ rest, nonnegSizes x := fun x hx => hnn x (by simp [hx])
    have hW : 0 ≤ subtreeWidth sp col c := subtreeWidth_nonneg sp col hhs c hnnc
    have hS : 0 ≤ subtreeWidthList sp col rest := subtreeWidthList_nonneg sp col hhs rest hnnr
    obtain ⟨hcb, hcp⟩ := IH c (by simp) (cx + subtreeWidth sp col c / 2)
      (edgeY + σ * c.info.height / 2) hnnc
    obtain ⟨hrb, hrp⟩ := ihl (fun x hx => IH x (by simp [hx])) edgeY
      (cx + subtreeWidth sp col c) hnnr
    simp only [layoutVerticalChildren, visBoxesList]
    constructor
    · intro b hb
      rcases List.mem_append.mp hb with hb1 | hb2
      · obtain ⟨hband, hbey⟩ := hcb b hb1
        refine ⟨⟨?_, ?_⟩, ?_⟩
        · have := hband.1
          linarith
        · have := hband.2
          simp only [subtreeWidthList]
          linarith
        · have harith : σ * (edgeY + σ * c.info.height / 2) - c.info.height / 2 =
              σ * edgeY + σ * σ * c.info.height / 2 - c.info.height / 2 := by ring
          rw [harith, hσ2] at hbey
          linarith
      · obtain ⟨hband, hbey⟩ := hrb b hb2
        refine ⟨⟨?_, ?_⟩, hbey⟩
        · have := hband.1
          linarith
        · have := hband.2
          simp only [subtreeWidthList]
          linarith
    · rw [List.pairwise_append]
      refine ⟨hcp, hrp, ?_⟩
      intro b1 hb1 b2 hb2
      have h1 := (hcb b1 hb1).1.2
      have h2 := (hrb b2 hb2).1.1
      exact boxDisjoint_of_x_le b1 b2 (by linarith)

theorem layoutVertical_ok (sp : Sp) (col : List ℕ) (σ : ℚ)
    (hσ : σ = 1 ∨ σ = -1) (hvg : 0 ≤ sp.verticalSpacingY)
    (hhs : 0 ≤ sp.horizontalSpacing) :
    ∀ t, vNodeOK sp col σ t := by
  have hσ2 : σ * σ = 1 := by rcases hσ with h | h <;> rw [h] <;> norm_num
  intro t
  induction t using snodeStrongInd with
  | h i cs ih =>
    intro x y hnn
    have hw : 0 ≤ i.width := (nonnegSizes_self i cs hnn).1
    have hh : 0 ≤ i.height := (nonnegSizes_self i cs hnn).2
    have hge := subtreeWidth_ge sp col i cs
    simp only [layoutVertical]
    by_cases hc : (cs.isEmpty || col.contains i.id) = true
    · rw [if_pos hc]
      have hboxes : visBoxes col (PNode.mk i x y (unplacedList cs)) =
          [Box.mk x y i.width i.height] := by
        simp only [visBoxes]
        by_cases hcol : col.contains i.id = true
        · rw [if_pos hcol]
        · have hcs : cs = [] := by
            rcases Bool.or_eq_true_iff.mp hc with h1 | h1
            · exact List.isEmpty_iff.mp h1
            · exact absurd h1 hcol
          subst hcs
          rw [if_neg hcol]
          rfl
      rw [hboxes]
      constructor
      · intro b hb
        simp only [List.mem_singleton] at hb
        subst hb
        refine ⟨⟨?_, ?_⟩, ?_⟩
        · dsimp only
          linarith
        · dsimp only
          linarith
        · dsimp only [SNode.info]
          linarith
      · simp
    · rw [if_neg hc]
      have hcfalse : (cs.isEmpty || col.contains i.id) = false := by
        cases hbb : (cs.isEmpty || col.contains i.id)
        · rfl
        · exact absurd hbb hc
      have hcol : col.contains i.id = false := by
        cases hb : col.contains i.id
        · rfl
        · exfalso
          apply hc
          rw [hb, Bool.or_true]
      have hS : subtreeWidthList sp col cs ≤ subtreeWidth sp col (SNode.mk i cs) :=
        subtreeWidthList_le sp col i cs hcfalse
      have hSnn : 0 ≤ subtreeWidthList sp col cs :=
        subtreeWidthList_nonneg sp col hhs cs (nonnegSizes_children i cs hnn)
      obtain ⟨hcb, hcp⟩ := layoutVerticalChildren_ok_aux sp col σ hσ hhs cs ih
        (y + σ * (i.height / 2 + sp.verticalSpacingY))
        (x - subtreeWidthList sp col cs / 2) (nonnegSizes_children i cs hnn)
      have hedge : σ * (y + σ * (i.height / 2 + sp.verticalSpacingY)) =
          σ * y + i.height / 2 + sp.verticalSpacingY := by
        have : σ * (y + σ * (i.height / 2 + sp.verticalSpacingY)) =
            σ * y + σ * σ * (i.height / 2 + sp.verticalSpacingY) := by ring
        rw [this, hσ2]
        ring
      simp only [visBoxes, hcol, if_false]
      constructor
      · intro b hb
        rcases List.mem_cons.mp hb with hb1 | hb2
        · subst hb1
          refine ⟨⟨?_, ?_⟩, ?_⟩
          · dsimp only
            linarith
          · dsimp only
            linarith
          · dsimp only [SNode.info]
            linarith
        · obtain ⟨hband, hbey⟩ := hcb b hb2
          rw [hedge] at hbey
          refine ⟨⟨?_, ?_⟩, ?_⟩
          · have := hband.1
            linarith
          · have := hband.2
            linarith
          · dsimp only [SNode.info]
            linarith
      · rw [List.pairwise_cons]
        constructor
        · intro b hb
          obtain ⟨_, hbey⟩ := hcb b hb
          rw [hedge] at hbey
          apply boxDisjoint_of_sy_le σ hσ
          dsimp only
          linarith
        · exact hcp

theorem jsRound_nonneg (q : ℚ) (h : 0 ≤ q) : 0 ≤ jsRound q := by
  unfold jsRound
  have h2 : (0 : ℤ) ≤ ⌊q + 1/2⌋ := by
    rw [Int.le_floor]
    push_cast
    linarith
  exact_mod_cast h2

theorem jsCeil_nonneg (q : ℚ) (h : 0 ≤ q) : 0 ≤ jsCeil q := by
  unfold jsCeil
  have h2 : (0 : ℤ) ≤ ⌈q⌉ := Int.ceil_nonneg h
  exact_mod_cast h2

theorem computeAdaptiveSpacing_nonneg (o : Options) (root : SNode)
    (h : optsGapsPos o) : spNonneg (computeAdaptiveSpacing o root) := by
  obtain ⟨hsm, hb, hs2, hvy, hhs, hvs⟩ := h
  unfold computeAdaptiveSpacing spNonneg
  by_cases hl : (o.layout = "up" ∨ o.layout = "down")
  · rw [if_pos hl]
    refine ⟨jsRound_nonneg _ ?_, jsRound_nonneg _ ?_, jsRound_nonneg _ ?_,
      jsRound_nonneg _ ?_, jsRound_nonneg _ ?_⟩ <;> positivity
  · rw [if_neg hl]
    have hdf : 0 ≤ (if maxDepth root ≤ 2 then (1 : ℚ)
        else max (9/20) ((5/2) / (maxDepth root : ℚ))) := by
      by_cases h2 : maxDepth root ≤ 2
      · rw [if_pos h2]; norm_num
      · rw [if_neg h2]
        exact le_trans (by norm_num) (le_max_left _ _)
    refine ⟨jsRound_nonneg _ ?_, jsRound_nonneg _ ?_, jsRound_nonneg _ ?_,
      jsRound_nonneg _ ?_, jsRound_nonneg _ ?_⟩
    · exact mul_nonneg (le_of_lt hb) (mul_nonneg (le_of_lt hsm) hdf)
    · exact mul_nonneg (le_of_lt hs2) (mul_nonneg (le_of_lt hsm) hdf)
    · positivity
    · positivity
    · positivity

theorem foldl_max_init (f : String → ℚ) :
    ∀ (ls : List String) (acc : ℚ), acc ≤ ls.foldl (fun m l => max m (f l)) acc := by
  intro ls
  induction ls with
  | nil => intro acc; simp
  | cons l rest ih =>
    intro acc
    simp only [List.foldl_cons]
    exact le_trans (le_max_left acc (f l)) (ih (max acc (f l)))

theorem sizeInfo_nonneg (o : Options) (measure : String → ℚ → ℚ) (i : NodeInfo)
    (hp : profilesNonneg o) :
    0 ≤ (sizeInfo o measure i).width ∧ 0 ≤ (sizeInfo o measure i).height := by
  obtain ⟨hprof, hlh⟩ := hp
  obtain ⟨hfs, hpx, hpy, hmw⟩ := hprof i.depth
  simp only [sizeInfo]
  constructor
  · apply jsCeil_nonneg
    apply le_min
    · have hfold := foldl_max_init (fun l => measure l (profileFor o i.depth).fontSize)
        (wrapText i.topic ((profileFor o i.depth).maxWidth -
          (profileFor o i.depth).paddingX * 2 -
          (if i.url.isSome then LINK_ICON_SPACE else 0))
          (fun t => measure t (profileFor o i.depth).fontSize)) 0
      have hicon : (0 : ℚ) ≤ (if i.url.isSome then LINK_ICON_SPACE else 0) := by
        by_cases hu : i.url.isSome <;> simp [hu, LINK_ICON_SPACE]
      linarith
    · exact hmw
  · apply jsCeil_nonneg
    have hlen : (0 : ℚ) ≤ ((wrapText i.topic ((profileFor o i.depth).maxWidth -
        (profileFor o i.depth).paddingX * 2 -
        (if i.url.isSome then LINK_ICON_SPACE else 0))
        (fun t => measure t (profileFor o i.depth).fontSize)).length : ℚ) := by
      positivity
    have hlh2 : 0 ≤ (profileFor o i.depth).fontSize * o.lineHeight :=
      mul_nonneg hfs hlh
    have := mul_nonneg hlen hlh2
    linarith

theorem computeSizes_nonneg (o : Options) (measure : String → ℚ → ℚ)
    (hp : profilesNonneg o) : ∀ t, nonnegSizes (computeSizes o measure t) := by
  intro t
  induction t using nodeStrongInd with
  | h i cs ih =>
    intro inf hinf
    simp only [computeSizes, sInfos, List.mem_cons] at hinf
    rcases hinf with hself | hrest
    · subst hself
      exact sizeInfo_nonneg o measure i hp
    · obtain ⟨c2, hc2, hinf2⟩ := mem_sInfosList _ inf hrest
      rw [computeSizesList_eq_map] at hc2
      obtain ⟨c, hc, hceq⟩ := List.mem_map.mp hc2
      subst hceq
      exact ih c hc inf hinf2

theorem rootA_zero_sized :
    computeSizes optsCexC3 measureZero rootADirected = rootANegSized := by
  have hR : (wrapText "Root" 184 fun t => (0:ℚ)) = ["Root"] := by decide
  have hA : (wrapText "A" 164 fun t => (0:ℚ)) = ["A"] := by decide
  simp only [computeSizes, computeSizesList, rootADirected, rootANegSized]
  norm_num [sizeInfo, profileFor, optsCexC3, defaultOptions, LINK_ICON_SPACE, measureZero,
    SInfo.mk.injEq, jsCeil_floor, hR, hA]

theorem rootA_cex_sp :
    computeAdaptiveSpacing optsCexC3 rootANegSized = Sp.mk 22 17 6 3 5 := by
  have hmd : maxDepth rootANegSized = 1 := by
    simp [maxDepth, maxDepthList, rootANegSized]
  simp only [computeAdaptiveSpacing, hmd]
  norm_num [optsCexC3, defaultOptions, jsRound, Sp.mk.injEq]

theorem rootA_cex_boxes :
    visBoxes [] (layoutTree optsCexC3 (Sp.mk 22 17 6 3 5) [] rootANegSized) =
      [Box.mk 0 0 56 57, Box.mk 40 0 36 41] := by
  simp only [layoutTree]
  rw [if_neg (by decide)]
  simp only [layoutTreeH, rootANegSized]
  norm_num [layoutSide, layoutChildren, layoutNode, subtreeHeight, subtreeHeightList,
    unplaced, unplacedList, visBoxes, visBoxesList, optsCexC3, defaultOptions, SNode.info,
    Box.mk.injEq, (show ¬("vertical" : String) = "side" from by decide)]

/-- C3 counterexample: with the documented option `centerEdge: "vertical"`,
a positive spacing multiplier of 0.1, positive default base gaps, a benign
zero-width measurer and the two-node input {Root → A}, the render pass
produces the root box (center (0,0), 56×57) and the branch box (center
(40,0), 36×41), whose interiors overlap: the effective branch gap 22 is
smaller than the root's half-width 28. -/
theorem C3_counterexample :
    renderBoxes optsCexC3 measureZero [] rootA =
      .ok [Box.mk 0 0 56 57, Box.mk 40 0 36 41] ∧
    ¬boxDisjoint (Box.mk 0 0 56 57) (Box.mk 40 0 36 41) ∧
    optsGapsPos optsCexC3 := by
  refine ⟨?_, ?_, ?_⟩
  · have h0 : buildTree rootA (-1) 0 0 = .ok (rootABuilt, 2) := by rfl
    have h1 : assignDirections optsCexC3.layout rootABuilt = rootADirected := rootA_directed
    simp only [renderBoxes, h0, h1, rootA_zero_sized, rootA_cex_sp, rootA_cex_boxes]
  · intro h
    apply h
    unfold openOverlap
    constructor <;> dsimp only <;> norm_num
  · unfold optsGapsPos optsCexC3 defaultOptions
    norm_num

/-- C3 (amended): with the default `centerEdge: "side"` anchoring, top-level
directions resolved to left/right, nonnegative effective gaps and node
sizes — all guaranteed by the earlier passes for positive spacing options
and nonnegative profiles, per the two bridge conjuncts — no two visible
boxes of a horizontal layout have overlapping interiors; the same holds for
the vertical (down/up) layouts with no side condition.  With
`centerEdge: "vertical"` a root wider than twice the branch gap overlaps
its depth-1 children. -/
theorem C3_no_overlap :
    (∀ (o : Options) (sp : Sp) (col : List ℕ) (i : SInfo) (cs : List SNode),
      (o.layout = "auto" ∨ o.layout = "left" ∨ o.layout = "right") →
      o.centerEdge = "side" →
      0 ≤ sp.branchSpacingX → 0 ≤ sp.subSpacingX → 0 ≤ sp.verticalSpacing →
      nonnegSizes (.mk i cs) →
      (∀ c ∈ cs, c.info.direction = some "right" ∨ c.info.direction = some "left") →
      (visBoxes col (layoutTree o sp col (.mk i cs))).Pairwise boxDisjoint) ∧
    (∀ (o : Options) (sp : Sp) (col : List ℕ) (t : SNode),
      (o.layout = "down" ∨ o.layout = "up") →
      0 ≤ sp.verticalSpacingY → 0 ≤ sp.horizontalSpacing →
      nonnegSizes t →
      (visBoxes col (layoutTree o sp col t)).Pairwise boxDisjoint) ∧
    (∀ (o : Options) (root : SNode), optsGapsPos o →
      spNonneg (computeAdaptiveSpacing o root)) ∧
    (∀ (o : Options) (measure : String → ℚ → ℚ) (t : Node), profilesNonneg o →
      nonnegSizes (computeSizes o measure t)) := by
  refine ⟨?_, ?_, ?_, ?_⟩
  · intro o sp col i cs hlay hedge hbs hsub hvs hnn hdirs
    have hne : ¬(o.layout = "down" ∨ o.layout = "up") := by
      rcases hlay with h | h | h <;> simp [h]
    unfold layoutTree
    rw [if_neg hne]
    exact layoutTreeH_disjoint o sp col hedge hbs hsub hvs i cs hnn hdirs
  · intro o sp col t hlay hvg hhs hnn
    unfold layoutTree
    rw [if_pos hlay]
    have hσ : (if o.layout = "down" then (1:ℚ) else -1) = 1 ∨
        (if o.layout = "down" then (1:ℚ) else -1) = -1 := by
      by_cases h : o.layout = "down" <;> simp [h]
    exact (layoutVertical_ok sp col _ hσ hvg hhs t 0 0 hnn).2
  · intro o root h
    exact computeAdaptiveSpacing_nonneg o root h
  · intro o measure t hp
    exact computeSizes_nonneg o measure hp t

/-- C3 witness: the sized two-node fixture laid out with the default side
anchoring has pairwise-disjoint visible boxes, and the default options
yield nonnegative gaps. -/
theorem C3_no_overlap_witness :
    (visBoxes [] (layoutTree defaultOptions (Sp.mk 220 170 60 30 50) []
      rootANegSized)).Pairwise boxDisjoint ∧
    spNonneg (computeAdaptiveSpacing defaultOptions rootANegSized) := by
  constructor
  · apply C3_no_overlap.1 defaultOptions (Sp.mk 220 170 60 30 50) []
      (SInfo.mk "Root" none none 0 (-1) 0 ["Root"] 56 57)
      [SNode.mk (SInfo.mk "A" none (some "right") 1 0 1 ["A"] 36 41) []]
      (Or.inl rfl) rfl (by norm_num) (by norm_num) (by norm_num)
    · intro inf hinf
      simp only [sInfos, sInfosList, List.mem_cons, List.mem_append,
        List.not_mem_nil, or_false] at hinf
      rcases hinf with h | h <;> subst h <;> norm_num
    · intro c hc
      simp only [List.mem_singleton] at hc
      subst hc
      left
      rfl
  · exact C3_no_overlap.2.2.1 defaultOptions rootANegSized
      (by unfold optsGapsPos defaultOptions; norm_num)
